import Mathlib

/-!
Verification of `bambu_auto_pause.py` (a post-processor for Bambu Lab
3D-printer g-code that inserts pauses for manual filament changes).

The Python source is shallowly embedded below.  Conventions:

* A Python `Filament` compares and hashes by `id` alone; its `color` field is
  presentation-only and never influences control flow (the id→color mapping
  matters only through the possibility of a `KeyError` on lookup, which is
  modelled explicitly).  Filaments are therefore embedded as their ids.
* Python exceptions are modelled with `Except PyError`; each raise site in the
  source gets its own `PyError` constructor.
* G-code lines are `String`s; the regular-expression prefixes used by the
  source (`re.match`) are embedded as explicit character-list parsers.
* Python's `sorted` is a stable sort; it is embedded as a left-fold insertion
  sort (`sortedByLen`, `sortedById`) which is stable by construction.
-/

/-- Python `Filament`: equality and ordering are by `id` alone, so a filament
is embedded as its id. -/
abbrev Filament := Nat

/-- Errors raised by the Python source (one constructor per `raise` site,
plus `indexError` for the implicit `IndexError` on an empty-list subscript). -/
inductive PyError where
  /-- `paused_filament_change`: first line lacks the block-start marker. -/
  | malformedStart : PyError
  /-- `paused_filament_change`: last line lacks the block-end marker. -/
  | malformedEnd : PyError
  /-- `paused_filament_change`: a `T<n>` line before any `M620 S<n>A` line. -/
  | nextExtruderNotSet : PyError
  /-- `FilamentGrouping.__init__`: filaments occurring in several groups. -/
  | duplicateGroups (dups : List Filament) : PyError
  /-- `FilamentGrouping.find_index`: filament not in any group. -/
  | notInAnyGroup (f : Filament) : PyError
  /-- `GCode.iter_manual_toolchanges`: AMS full, no same-group slot found. -/
  | amsCapacity (f : Filament) (ams : List Filament) : PyError
  /-- `ToolChange.iter_from_gcode`: `colors[id]` lookup failed (`KeyError`). -/
  | missingColor (id : Nat) : PyError
  /-- `ToolChange.iter_from_gcode`: missing/mismatched marker comments. -/
  | badMarkers (idx : Nat) : PyError
  /-- `FilamentGrouping.from_list`: `all_filaments[i]` failed (`KeyError`). -/
  | keyError (id : Nat) : PyError
  /-- Subscripting an empty list (Python `IndexError`). -/
  | indexError : PyError
deriving DecidableEq, Repr

/-- Python `str.startswith`: prefix test on the underlying characters. -/
def strStartsWith (s p : String) : Bool :=
  p.data.isPrefixOf s.data

/-- Decimal value of a digit string, as computed by Python `int()`. -/
def digitsToNat (ds : List Char) : Nat :=
  ds.foldl (fun a c => a * 10 + (c.toNat - 48)) 0

/-- Embeds `re.match(r'M620 S(\d+)A', line)`: an anchored match of the
literal `M620 S`, one or more digits (the group), then `A`; the rest of the
line is unconstrained.  Returns the group's numeric value. -/
def matchM620SA (l : List Char) : Option Nat :=
  if ("M620 S".data).isPrefixOf l then
    let rest := l.drop 6
    let ds := rest.takeWhile Char.isDigit
    if ds.isEmpty then none
    else match rest.drop ds.length with
      | 'A' :: _ => some (digitsToNat ds)
      | _ => none
  else none

/-- Embeds `re.match(r'T(\d+)', line)`: `T` then one or more digits; returns
the digit group (as characters, since the source compares it as a string). -/
def matchT (l : List Char) : Option (List Char) :=
  match l with
  | 'T' :: rest =>
    let ds := rest.takeWhile Char.isDigit
    if ds.isEmpty then none else some ds
  | _ => none

/-- Embeds `re.match(r'M73 L(\d+)', line)`: the layer-marker match. -/
def matchM73L (l : List Char) : Option Nat :=
  if ("M73 L".data).isPrefixOf l then
    let ds := (l.drop 5).takeWhile Char.isDigit
    if ds.isEmpty then none else some (digitsToNat ds)
  else none

/-- `pause_gcode` from the source. -/
def pause_gcode : String := "M400 U1"

/-- Loop body of `paused_filament_change`, with the `next_extruder` local
threaded through (`none` until the first `M620 S<n>A` line). -/
def pfcLoop : List String → Option Nat → Except PyError (List String)
  | [], _ => .ok []
  | line :: rest, next_extruder =>
    match matchM620SA line.data with
    | some n =>
      match pfcLoop rest (some n) with
      | .error e => .error e
      | .ok r => .ok ("M620 S255" :: r)
    | none =>
      if strStartsWith line "M620.1 E F523 T240" then
        pfcLoop rest next_extruder
      else
        match matchT line.data with
        | some _ =>
          match next_extruder with
          | none => .error .nextExtruderNotSet
          | some n =>
            match pfcLoop rest next_extruder with
            | .error e => .error e
            | .ok r =>
              .ok (["T255", "M621 S255", pause_gcode,
                    "G1 X100 F5000", "G1 X165 F15000", "G1 Y256", "M400",
                    "M620 S" ++ toString n ++ "A", "M620.1 E F523 T240",
                    line, "M620.1 E F523 T240"] ++ r)
        | none =>
          match pfcLoop rest next_extruder with
          | .error e => .error e
          | .ok r => .ok (line :: r)

/-- Embeds `paused_filament_change`.  The empty-input case is Python's
`IndexError` on `filament_change_gcode[0]`. -/
def paused_filament_change (filament_change_gcode : List String) :
    Except PyError (List String) :=
  match filament_change_gcode with
  | [] => .error .indexError
  | first :: _ =>
    if !strStartsWith first "; CP TOOLCHANGE START" then
      .error .malformedStart
    else if !strStartsWith (filament_change_gcode.getLastD "") "; CP TOOLCHANGE END" then
      .error .malformedEnd
    else
      pfcLoop filament_change_gcode none

/-- Group-size guard of `unique_k_partition`: Python skips a merge when
`max_group_size is not None and len(subset) + 1 > max_group_size`. -/
def allowSize (max_group_size : Option Nat) (n : Nat) : Bool :=
  match max_group_size with
  | none => true
  | some m => n ≤ m

/-- The inner `for n, subset in enumerate(smaller)` loop of
`unique_k_partition`: all ways of prepending `first` to one subset of the
partition, in position order, skipping oversize merges. -/
def insertions (first : Nat) (max_group_size : Option Nat) :
    List (List Nat) → List (List (List Nat))
  | [] => []
  | subset :: rest =>
    (if allowSize max_group_size (subset.length + 1) then
      [(first :: subset) :: rest]
    else []) ++ (insertions first max_group_size rest).map (subset :: ·)

/-- Embeds `unique_k_partition`.  On the empty collection Python raises
`IndexError` at `collection[0]`; that call never happens recursively and is
modelled as producing no partitions (theorems that depend on this corner
assume a nonempty collection). -/
def unique_k_partition : List Nat → Nat → Option Nat → List (List (List Nat))
  | [], _, _ => []
  | [x], k, _ => if k == 1 then [[[x]]] else []
  | x :: y :: ys, k, max_group_size =>
    ((unique_k_partition (y :: ys) k max_group_size).map
      (fun smaller => insertions x max_group_size smaller)).flatten
    ++ (unique_k_partition (y :: ys) (k - 1) max_group_size).map
      (fun smaller => [x] :: smaller)

/-- Python's stable `sorted(group, key=lambda x: x.id)`, as insertion into a
sorted accumulator (insertion after all keys `≤` preserves stability). -/
def insertById (x : Filament) : List Filament → List Filament
  | [] => [x]
  | y :: ys => if y ≤ x then y :: insertById x ys else x :: y :: ys

/-- Stable sort of a group by filament id. -/
def sortedById (g : List Filament) : List Filament :=
  g.foldl (fun acc x => insertById x acc) []

/-- Python's stable `sorted(groups, key=len)`, by stable insertion. -/
def insertByLen (x : List Filament) : List (List Filament) → List (List Filament)
  | [] => [x]
  | y :: ys => if y.length ≤ x.length then y :: insertByLen x ys else x :: y :: ys

/-- Stable sort of the group list by group size. -/
def sortedByLen (gs : List (List Filament)) : List (List Filament) :=
  gs.foldl (fun acc x => insertByLen x acc) []

/-- Embeds the `FilamentGrouping` class: the `_groups` field. -/
structure FilamentGrouping where
  groups : List (List Filament)
deriving DecidableEq, Repr

/-- Embeds `FilamentGrouping.__init__`: collect the filaments seen at least
twice across the flattened input groups; fail if any, else store each group
sorted by id and the group list stably sorted by size. -/
def mkFilamentGrouping (gs : List (List Filament)) :
    Except PyError FilamentGrouping :=
  let flat := gs.flatten
  let dups := (flat.filter (fun f => 2 ≤ flat.count f)).dedup
  if dups.isEmpty then
    .ok ⟨sortedByLen (gs.map sortedById)⟩
  else
    .error (.duplicateGroups dups)

/-- Embeds `FilamentGrouping.from_list`: map explicit id groups through the
id universe (a `KeyError` if an id is unknown), then add a singleton group
for every filament not mentioned.  The Python `all_filaments` dict is
embedded as the list of its keys (= its values, as filaments are ids). -/
def FilamentGrouping.from_list (gs : List (List Nat)) (all_filaments : List Nat) :
    Except PyError FilamentGrouping :=
  match gs.flatten.find? (fun i => !all_filaments.contains i) with
  | some i => .error (.keyError i)
  | none =>
    let used := gs.flatten
    let singles := (all_filaments.filter (fun f => !used.contains f)).map ([·])
    mkFilamentGrouping (gs ++ singles)

/-- Embeds `FilamentGrouping.is_grouped`. -/
def is_grouped (G : FilamentGrouping) (left right : Filament) : Bool :=
  G.groups.any (fun g => g.contains left && g.contains right)

/-- First index in `l` satisfying `p` (the `next(... enumerate ...)` /
linear-scan idiom used repeatedly by the source). -/
def idxOfP (p : α → Bool) : List α → Option Nat
  | [] => none
  | a :: as => if p a then some 0 else (idxOfP p as).map (· + 1)

/-- Embeds `FilamentGrouping.find_filament_group`. -/
def find_filament_group (G : FilamentGrouping) (f : Filament) : Option (List Filament) :=
  G.groups.find? (fun g => g.contains f)

/-- Embeds `FilamentGrouping.find_index`: raises if `f` is in no group, else
the first AMS slot holding a filament of `f`'s group. -/
def find_index (G : FilamentGrouping) (filaments : List Filament) (f : Filament) :
    Except PyError (Option Nat) :=
  match find_filament_group G f with
  | none => .error (.notInAnyGroup f)
  | some grp => .ok (idxOfP (fun cur => grp.contains cur) filaments)

/-- Embeds the `ToolChange` dataclass. -/
structure ToolChange where
  layer : Nat
  current_filament : Option Filament
  next_filament : Filament
  index : Nat
  start_index : Option Nat
  end_index : Nat
deriving DecidableEq, Repr

/-- Embeds `ToolChange.is_manual`: `next not in ams and find_index(...) is
not None` — note the Python short-circuit: `find_index` (which can raise) is
only evaluated when `next` is not slot-resident. -/
def ToolChange.is_manual (tc : ToolChange) (ams : List Filament)
    (G : FilamentGrouping) : Except PyError Bool :=
  if ams.contains tc.next_filament then .ok false
  else
    match find_index G ams tc.next_filament with
    | .error e => .error e
    | .ok idx => .ok idx.isSome

/-- Embeds the `ManualToolChange` dataclass (`ams` is the pre-transition
snapshot; Python copies the mutable list with `list(ams)`). -/
structure ManualToolChange where
  toolchange : ToolChange
  ams : List Filament
deriving DecidableEq, Repr

/-- One iteration of the `iter_manual_toolchanges` loop: the optional yield,
then the slot-array update (append into free capacity, overwrite the group's
home slot, or raise when the array is full with no same-group slot). -/
def stepTC (G : FilamentGrouping) (ams_size : Nat) (ams : List Filament)
    (tc : ToolChange) : Except PyError (Option ManualToolChange × List Filament) :=
  match tc.is_manual ams G with
  | .error e => .error e
  | .ok m =>
    let ev := if m then some (⟨tc, ams⟩ : ManualToolChange) else none
    match find_index G ams tc.next_filament with
    | .error e => .error e
    | .ok none =>
      if ams.length == ams_size then
        .error (.amsCapacity tc.next_filament ams)
      else
        .ok (ev, ams ++ [tc.next_filament])
    | .ok (some i) => .ok (ev, ams.set i tc.next_filament)

/-- Embeds the whole `iter_manual_toolchanges` pass from a given slot state:
the list of yielded `ManualToolChange`s, or the first error. -/
def iterTC (G : FilamentGrouping) (ams_size : Nat) :
    List ToolChange → List Filament → Except PyError (List ManualToolChange)
  | [], _ => .ok []
  | tc :: rest, ams =>
    match stepTC G ams_size ams tc with
    | .error e => .error e
    | .ok (ev, ams') =>
      match iterTC G ams_size rest ams' with
      | .error e => .error e
      | .ok evs => .ok (ev.toList ++ evs)

/-- Embeds `GCode.iter_manual_toolchanges` (initial state: empty array). -/
def iter_manual_toolchanges (G : FilamentGrouping) (ams_size : Nat)
    (toolchanges : List ToolChange) : Except PyError (List ManualToolChange) :=
  iterTC G ams_size toolchanges []

/-- The trajectory of slot states of one simulation pass: the state before
each transition, then the final state; truncated at an error. -/
def amsStates (G : FilamentGrouping) (ams_size : Nat) :
    List ToolChange → List Filament → List (List Filament)
  | [], ams => [ams]
  | tc :: rest, ams =>
    ams :: (match stepTC G ams_size ams tc with
      | .ok (_, ams') => amsStates G ams_size rest ams'
      | .error _ => [])

/-- Loop body of `GCode.find_best_mapping`: fold the candidates, keeping the
candidate whenever its manual count is `≤` the best so far. -/
def fbmLoop (toolchanges : List ToolChange) (ams_size : Nat) :
    List (List (List Filament)) → Option (FilamentGrouping × Nat) →
    Except PyError (Option (FilamentGrouping × Nat))
  | [], best => .ok best
  | combination :: rest, best =>
    match mkFilamentGrouping combination with
    | .error e => .error e
    | .ok filament_grouping =>
      match iter_manual_toolchanges filament_grouping ams_size toolchanges with
      | .error e => .error e
      | .ok evs =>
        let n := evs.length
        let best' := match best with
          | none => some (filament_grouping, n)
          | some b => if n ≤ b.2 then some (filament_grouping, n) else b
        fbmLoop toolchanges ams_size rest best'

/-- Embeds `GCode.find_best_mapping`: search `unique_k_partition(all, ams_size)`
and return the winner with its manual count and the total tool-change count. -/
def find_best_mapping (toolchanges : List ToolChange) (all_filaments : List Filament)
    (ams_size : Nat) (max_group_size : Option Nat) :
    Except PyError (Option (FilamentGrouping × Nat × Nat)) :=
  match fbmLoop toolchanges ams_size
    (unique_k_partition all_filaments ams_size max_group_size) none with
  | .error e => .error e
  | .ok none => .ok none
  | .ok (some (g, n)) => .ok (some (g, n, toolchanges.length))

/-- The three codes skipped by the scanner: `match.group(1) in
['1000', '1100', '255']` (a string comparison on the digit group). -/
def sentinelCodes : List (List Char) :=
  [['1', '0', '0', '0'], ['1', '1', '0', '0'], ['2', '5', '5']]

/-- `colors[id]` on the id→color dict (first binding wins; the claims never
involve duplicate keys). -/
def lookupColor (colors : List (Nat × String)) (id : Nat) : Option String :=
  (colors.find? (fun p => p.1 == id)).map Prod.snd

/-- The forward scan for the next `; CP TOOLCHANGE END` line. -/
def findEndAux : List String → Nat → Option Nat
  | [], _ => none
  | s :: rest, i =>
    if strStartsWith s "; CP TOOLCHANGE END" then some i else findEndAux rest (i + 1)

/-- `next((idx for idx, line in enumerate(gcode[idx:], start=idx) if
line.startswith("; CP TOOLCHANGE END")), None)`. -/
def findEndIndex (gcode : List String) (idx : Nat) : Option Nat :=
  findEndAux (gcode.drop idx) idx

/-- Loop body of `ToolChange.iter_from_gcode` over the remaining lines, with
the absolute index and the `current_*` locals threaded through. -/
def scanGo (colors : List (Nat × String)) (gcode : List String) :
    List String → Nat → Option Filament → Nat → Option Nat →
    Except PyError (List ToolChange)
  | [], _, _, _, _ => .ok []
  | line :: rest, idx, current_filament, current_layer, current_start_index =>
    let si := if strStartsWith line "; CP TOOLCHANGE START" then some idx
              else current_start_index
    match matchM73L line.data with
    | some l => scanGo colors gcode rest (idx + 1) current_filament l si
    | none =>
      match matchT line.data with
      | none => scanGo colors gcode rest (idx + 1) current_filament current_layer si
      | some ds =>
        if sentinelCodes.contains ds then
          scanGo colors gcode rest (idx + 1) current_filament current_layer si
        else
          let next_filament_id := digitsToNat ds
          match lookupColor colors next_filament_id with
          | none => .error (.missingColor next_filament_id)
          | some _ =>
            match findEndIndex gcode idx with
            | none => .error (.badMarkers idx)
            | some end_index =>
              if (match si with
                  | some s => !(gcode.getD s "" == "; CP TOOLCHANGE START")
                  | none => false)
                 || !(gcode.getD end_index "" == "; CP TOOLCHANGE END") then
                .error (.badMarkers idx)
              else
                match scanGo colors gcode rest (idx + 1)
                  (some next_filament_id) current_layer si with
                | .error e => .error e
                | .ok evs =>
                  .ok (⟨current_layer, current_filament, next_filament_id,
                        idx, si, end_index⟩ :: evs)

/-- Embeds `ToolChange.iter_from_gcode`. -/
def iter_from_gcode (gcode : List String) (colors : List (Nat × String)) :
    Except PyError (List ToolChange) :=
  scanGo colors gcode gcode 0 none 0 none


/-! ## Specification-side definitions

The definitions below restate properties in the spec's vocabulary; the
claim theorems compare them with the code-derived definitions above. -/

/-- Spec-side manual classification (§4.2 step 1, claim C1): the next
filament is not slot-equal to any occupant, and some slot holds a filament
of the same group (`is_grouped`) as the next filament. -/
def manualSpecCond (G : FilamentGrouping) (ams : List Filament) (tc : ToolChange) : Bool :=
  !ams.contains tc.next_filament
    && ams.any (fun r => is_grouped G r tc.next_filament)

/-- Spec-side event stream (claim C1): pair each tool change with the slot
state *before* its transition and keep exactly the manual ones, each
carrying that pre-transition snapshot. -/
def manualSpecEvents (G : FilamentGrouping) (ams_size : Nat)
    (toolchanges : List ToolChange) : List ManualToolChange :=
  (toolchanges.zip (amsStates G ams_size toolchanges [])).filterMap
    (fun p => if manualSpecCond G p.2 p.1 then some ⟨p.1, p.2⟩ else none)

/-- The slot-array invariant of claim C10: bounded length, every resident
filament belongs to a group, and no two residents share a group. -/
def AmsInv (G : FilamentGrouping) (ams_size : Nat) (ams : List Filament) : Prop :=
  ams.length ≤ ams_size
    ∧ (∀ f ∈ ams, (find_filament_group G f).isSome)
    ∧ ams.Pairwise (fun a b => is_grouped G a b = false)

/-- Well-formedness used by the simulator lemmas: the flattened stored
groups have no duplicate filament (equivalently, the groups are pairwise
disjoint and internally duplicate-free); guaranteed by construction. -/
def WFGrouping (G : FilamentGrouping) : Prop :=
  G.groups.flatten.Nodup

/-- A valid candidate in the sense of (amended) claim C2: a partition of the
collection into exactly `k` non-empty groups within the size bound. -/
def ValidPartition (collection : List Nat) (k : Nat) (max_group_size : Option Nat)
    (q : List (List Nat)) : Prop :=
  q.length = k ∧ (∀ g ∈ q, g ≠ []) ∧ List.Perm q.flatten collection
    ∧ (∀ g ∈ q, ∀ m, max_group_size = some m → g.length ≤ m)

/-- The underlying set partition of a list-of-lists representation. -/
def partsOf (p : List (List Nat)) : Finset (Finset Nat) :=
  (p.map List.toFinset).toFinset

/-- Spec-side winner of the optimizer fold (claim C4): the last entry of the
scored candidate list achieving the minimal score, computed by recursion
from the right (an earlier entry only wins with a strictly smaller score). -/
def lastMin : List (FilamentGrouping × Nat) → Option (FilamentGrouping × Nat)
  | [] => none
  | x :: rest =>
    match lastMin rest with
    | none => some x
    | some b => if b.2 ≤ x.2 then some b else some x

/-- Merging an already-computed best with the best of the remaining scored
candidates (the remaining ones are later, so they win ties). -/
def optCombine :
    Option (FilamentGrouping × Nat) → Option (FilamentGrouping × Nat) →
    Option (FilamentGrouping × Nat)
  | b, none => b
  | none, some s => some s
  | some b, some s => if s.2 ≤ b.2 then some s else some b

/-- Least id of a group (0 for an empty group), for claim C9's ordering. -/
def minId (g : List Filament) : Nat :=
  g.foldr min (g.headD 0)

/-- Claim C9's claimed storage order: ascending size, then ascending minimum
id among groups of equal size. -/
def SortedBySizeThenMinId (gs : List (List Filament)) : Prop :=
  gs.Pairwise (fun a b =>
    a.length < b.length ∨ (a.length = b.length ∧ minId a ≤ minId b))

/-- Claim C6's amended failure condition on the loop: some `T<n>` line is
reached with no earlier `M620 S<n>A` line to set the next extruder. -/
def hasOrphanT : List String → Bool
  | [] => false
  | line :: rest =>
    match matchM620SA line.data with
    | some _ => false
    | none =>
      if strStartsWith line "M620.1 E F523 T240" then hasOrphanT rest
      else if (matchT line.data).isSome then true else hasOrphanT rest

/-! ## Claim C3: the transformer on the six-line synthetic block -/

/-- C3 counterexample: on the six-line synthetic block the transformer
returns a 14-line sequence (start marker, rewritten arm command, the 11-line
replacement of the tool-change command, end marker), not an 11-line output
as the claim states. -/
theorem c3_counterexample :
    paused_filament_change
      ["; CP TOOLCHANGE START", "M620 S3A", "M620.1 E F523 T240", "T3",
       "M620.1 E F523 T240", "; CP TOOLCHANGE END"] =
    .ok ["; CP TOOLCHANGE START", "M620 S255", "T255", "M621 S255", "M400 U1",
         "G1 X100 F5000", "G1 X165 F15000", "G1 Y256", "M400", "M620 S3A",
         "M620.1 E F523 T240", "T3", "M620.1 E F523 T240", "; CP TOOLCHANGE END"]
    ∧ (["; CP TOOLCHANGE START", "M620 S255", "T255", "M621 S255", "M400 U1",
        "G1 X100 F5000", "G1 X165 F15000", "G1 Y256", "M400", "M620 S3A",
        "M620.1 E F523 T240", "T3", "M620.1 E F523 T240",
        "; CP TOOLCHANGE END"] : List String).length ≠ 11 := by
  exact ⟨rfl, by decide⟩

/-- C3 (amended): the transformer maps the six-line synthetic block to
exactly these 14 lines: the start marker; the arm command with its
destination replaced by the unload sentinel (`M620 S255`, position 2); the
unload-only tool change; its completion marker; the pause command; three
repositioning moves; the motion wait; the arm command restored to
destination 3; the wrapper; the original tool-change command; the wrapper
again; and the end marker. -/
theorem c3_amended :
    paused_filament_change
      ["; CP TOOLCHANGE START", "M620 S3A", "M620.1 E F523 T240", "T3",
       "M620.1 E F523 T240", "; CP TOOLCHANGE END"] =
    .ok ["; CP TOOLCHANGE START", "M620 S255", "T255", "M621 S255", "M400 U1",
         "G1 X100 F5000", "G1 X165 F15000", "G1 Y256", "M400", "M620 S3A",
         "M620.1 E F523 T240", "T3", "M620.1 E F523 T240",
         "; CP TOOLCHANGE END"] := rfl

/-! ## Claim C2 counterexample: candidates have exactly `ams_size` groups -/

/-- C2 counterexample: with filament set `{0, 1}` and `ams_size = 2` the
optimizer's enumeration contains only the two-group partition; the one-group
partition `[[0, 1]]` (a partition into `1 ≤ ams_size` non-empty groups) is
not a candidate. -/
theorem c2_counterexample :
    unique_k_partition [0, 1] 2 none = [[[0], [1]]]
      ∧ [[0, 1]] ∉ unique_k_partition [0, 1] 2 none := by
  exact ⟨rfl, by decide⟩

/-! ## Claim C6 counterexample: a third failure mode of the transformer -/

/-- C6 counterexample: a block with correct start and end markers on which
the transformer still fails (its `T3` line is reached with no preceding
`M620 S<n>A` line), refuting "on every input block satisfying both marker
conditions it returns normally". -/
theorem c6_counterexample :
    paused_filament_change ["; CP TOOLCHANGE START", "T3", "; CP TOOLCHANGE END"] =
      .error .nextExtruderNotSet
    ∧ strStartsWith "; CP TOOLCHANGE START" "; CP TOOLCHANGE START" = true
    ∧ strStartsWith "; CP TOOLCHANGE END" "; CP TOOLCHANGE END" = true := by
  exact ⟨rfl, rfl, rfl⟩

/-! ## Claim C7 counterexample: duplicates inside a single group also fail -/

/-- C7 counterexample: construction from `[[1, 1]]` fails with the duplicate
error although filament 1 occurs in only one of the explicit input groups,
refuting the "iff some filament appears in at least two groups" direction. -/
theorem c7_counterexample :
    mkFilamentGrouping [[1, 1]] = .error (.duplicateGroups [1])
      ∧ ([[1, 1]] : List (List Filament)).countP (fun g => g.contains 1) = 1 := by
  exact ⟨rfl, rfl⟩

/-! ## Claim C8 counterexample: three sentinel codes, not two -/

/-- C8 counterexample: the scanner skips the three destination codes `255`,
`1000` and `1100` (no event, and no color lookup — an empty color map raises
no error), while `T7` is a real tool change; so there are three sentinel
codes, not exactly two. -/
theorem c8_counterexample :
    iter_from_gcode ["T255"] [] = .ok []
    ∧ iter_from_gcode ["T1000"] [] = .ok []
    ∧ iter_from_gcode ["T1100"] [] = .ok []
    ∧ iter_from_gcode ["T7", "; CP TOOLCHANGE END"] [(7, "gray")] =
        .ok [⟨0, none, 7, 0, none, 1⟩] := by
  exact ⟨rfl, rfl, rfl, rfl⟩

/-! ## Claim C9 counterexample: equal-size groups keep input order -/

/-- C9 counterexample: `[[2], [1]]` is stored unchanged (Python's
`sorted(key=len)` is stable and compares sizes only), which is not sorted by
ascending minimum id among the equal-size groups. -/
theorem c9_counterexample :
    mkFilamentGrouping [[2], [1]] = .ok ⟨[[2], [1]]⟩
      ∧ ¬ SortedBySizeThenMinId [[2], [1]] := by
  refine ⟨rfl, fun h => ?_⟩
  have h1 := (List.pairwise_cons.mp h).1 [1] (List.mem_singleton.mpr rfl)
  simp [minId] at h1

/-! ## Claim C6 (amended): exact success condition of the transformer -/

/-- Once a `M620 S<n>A` line has set the next extruder, the transformer loop
can no longer fail (its only remaining raise needs an unset extruder). -/
theorem pfcLoop_some_ok (lines : List String) :
    ∀ n, ∃ out, pfcLoop lines (some n) = .ok out := by
  induction lines with
  | nil => exact fun n => ⟨[], rfl⟩
  | cons line rest ih =>
    intro n
    simp only [pfcLoop]
    split
    · rename_i m hm
      obtain ⟨r, hr⟩ := ih m
      rw [hr]
      exact ⟨_, rfl⟩
    · split
      · exact ih n
      · split
        · obtain ⟨r, hr⟩ := ih n
          rw [hr]
          exact ⟨_, rfl⟩
        · obtain ⟨r, hr⟩ := ih n
          rw [hr]
          exact ⟨_, rfl⟩

/-- The transformer loop started with no extruder set succeeds exactly when
no `T<n>` line is reached before every `M620 S<n>A` line. -/
theorem pfcLoop_none_ok_iff (lines : List String) :
    (∃ out, pfcLoop lines none = .ok out) ↔ hasOrphanT lines = false := by
  induction lines with
  | nil => simp [pfcLoop, hasOrphanT]
  | cons line rest ih =>
    simp only [pfcLoop, hasOrphanT]
    split
    · rename_i m hm
      obtain ⟨r, hr⟩ := pfcLoop_some_ok rest m
      rw [hr]
      simp
    · split
      · exact ih
      · split
        · rename_i ds hds
          simp [hds]
        · rename_i hds
          rw [hds]
          simp only [Option.isSome_none, Bool.false_eq_true, if_false]
          constructor
          · rintro ⟨out, hout⟩
            cases hr : pfcLoop rest none with
            | error e => rw [hr] at hout; exact absurd hout (by simp)
            | ok r => exact ih.mp ⟨r, hr⟩
          · intro h2
            obtain ⟨r, hr⟩ := ih.mpr h2
            rw [hr]
            exact ⟨_, rfl⟩

/-- C6 (amended): the transformer succeeds iff the input is non-empty, the
first line carries the block-start marker, the last line carries the
block-end marker, AND no tool-change line precedes every arm line; the
claim's "returns normally whenever both markers are present" fails on blocks
with an orphan `T<n>` line. -/
theorem c6_amended (lines : List String) :
    (∃ out, paused_filament_change lines = .ok out) ↔
      (lines ≠ []
        ∧ strStartsWith (lines.headD "") "; CP TOOLCHANGE START" = true
        ∧ strStartsWith (lines.getLastD "") "; CP TOOLCHANGE END" = true
        ∧ hasOrphanT lines = false) := by
  cases lines with
  | nil => simp [paused_filament_change]
  | cons first rest =>
    simp only [paused_filament_change, List.headD_cons, ne_eq, reduceCtorEq,
      not_false_eq_true, true_and]
    by_cases h1 : strStartsWith first "; CP TOOLCHANGE START" = true
    · simp only [h1, Bool.not_true, Bool.false_eq_true, if_false, true_and]
      by_cases h2 :
          strStartsWith ((first :: rest).getLastD "") "; CP TOOLCHANGE END" = true
      · simp only [h2, Bool.not_true, Bool.false_eq_true, if_false, true_and]
        exact pfcLoop_none_ok_iff (first :: rest)
      · simp only [eq_false_of_ne_true h2, Bool.not_false, if_true, false_and,
          iff_false, and_false]
        simp
    · simp only [eq_false_of_ne_true h1, Bool.not_false, if_true, false_and,
        iff_false]
      simp

/-- C6 witness: a concrete well-formed block on which the amended condition
holds and the transformer succeeds. -/
theorem c6_witness :
    ∃ out, paused_filament_change
      ["; CP TOOLCHANGE START", "M620 S3A", "T3", "; CP TOOLCHANGE END"] =
      .ok out :=
  (c6_amended _).mpr ⟨by simp, rfl, rfl, rfl⟩

/-! ## Claim C7 (amended): construction failure and partition completeness -/

/-- Inserting into the id-sorted accumulator is a permutation. -/
theorem insertById_perm (x : Filament) (l : List Filament) :
    List.Perm (insertById x l) (x :: l) := by
  induction l with
  | nil => exact List.Perm.refl _
  | cons y ys ih =>
    simp only [insertById]
    split
    · exact (ih.cons y).trans (List.Perm.swap x y ys)
    · exact List.Perm.refl _

/-- The stable id sort permutes its input. -/
theorem sortedById_perm (g : List Filament) : List.Perm (sortedById g) g := by
  suffices h : ∀ (l acc : List Filament),
      List.Perm (l.foldl (fun acc x => insertById x acc) acc) (acc ++ l) by
    simpa using h g []
  intro l
  induction l with
  | nil => simp
  | cons x xs ih =>
    intro acc
    exact ((ih (insertById x acc)).trans
      ((insertById_perm x acc).append (List.Perm.refl xs))).trans
      List.perm_middle.symm

/-- Inserting into the size-sorted accumulator is a permutation. -/
theorem insertByLen_perm (x : List Filament) (l : List (List Filament)) :
    List.Perm (insertByLen x l) (x :: l) := by
  induction l with
  | nil => exact List.Perm.refl _
  | cons y ys ih =>
    simp only [insertByLen]
    split
    · exact (ih.cons y).trans (List.Perm.swap x y ys)
    · exact List.Perm.refl _

/-- The stable size sort permutes its input. -/
theorem sortedByLen_perm (gs : List (List Filament)) :
    List.Perm (sortedByLen gs) gs := by
  suffices h : ∀ (l acc : List (List Filament)),
      List.Perm (l.foldl (fun acc x => insertByLen x acc) acc) (acc ++ l) by
    simpa using h gs []
  intro l
  induction l with
  | nil => simp
  | cons x xs ih =>
    intro acc
    exact ((ih (insertByLen x acc)).trans
      ((insertByLen_perm x acc).append (List.Perm.refl xs))).trans
      List.perm_middle.symm

/-- Sorting each group by id does not change the flattened contents. -/
theorem flatten_map_sortedById_perm (gs : List (List Filament)) :
    List.Perm (gs.map sortedById).flatten gs.flatten := by
  induction gs with
  | nil => exact List.Perm.refl _
  | cons g rest ih =>
    simpa using (sortedById_perm g).append ih

/-- The stored group list of a constructed grouping permutes the flattened
input, group contents included. -/
theorem mk_groups_flatten_perm (gs : List (List Filament)) (G : FilamentGrouping)
    (h : mkFilamentGrouping gs = .ok G) :
    List.Perm G.groups.flatten gs.flatten := by
  have hG : G.groups = sortedByLen (gs.map sortedById) := by
    simp only [mkFilamentGrouping] at h
    split at h
    · cases h
      rfl
    · cases h
  rw [hG]
  exact ((sortedByLen_perm (gs.map sortedById)).flatten).trans
    (flatten_map_sortedById_perm gs)

/-- Success of `mkFilamentGrouping` is exactly no-duplicates of the
flattened groups. -/
theorem mk_ok_iff_nodup (gs : List (List Filament)) :
    (∃ G, mkFilamentGrouping gs = .ok G) ↔ gs.flatten.Nodup := by
  simp only [mkFilamentGrouping]
  have hiff : ((gs.flatten.filter
      (fun f => decide (2 ≤ gs.flatten.count f))).dedup).isEmpty = true
      ↔ gs.flatten.Nodup := by
    rw [List.isEmpty_iff, List.dedup_eq_nil, List.filter_eq_nil_iff,
      List.nodup_iff_count_le_one]
    constructor
    · intro h a
      by_cases ha : a ∈ gs.flatten
      · have := h a ha
        simp only [decide_eq_true_eq] at this
        omega
      · rw [List.count_eq_zero_of_not_mem ha]
        omega
    · intro h a _
      simp only [decide_eq_true_eq]
      have := h a
      omega
  constructor
  · rintro ⟨G, hG⟩
    split at hG
    · rename_i hempty
      exact hiff.mp hempty
    · cases hG
  · intro h
    refine ⟨⟨sortedByLen (gs.map sortedById)⟩, ?_⟩
    rw [if_pos (hiff.mpr h)]

/-- A filament of a duplicate-free flattened group list lies in exactly one
group. -/
theorem countP_groups_of_nodup_flatten (gs : List (List Filament)) (f : Filament)
    (hnd : gs.flatten.Nodup) (hf : f ∈ gs.flatten) :
    gs.countP (fun g => g.contains f) = 1 := by
  induction gs with
  | nil => simp at hf
  | cons g rest ih =>
    simp only [List.flatten_cons] at hnd hf
    obtain ⟨hg, hrest, hdisj⟩ := List.nodup_append.mp hnd
    by_cases hfg : f ∈ g
    · rw [List.countP_cons_of_pos _ _ (by simpa [List.elem_iff] using hfg)]
      have hnotrest : f ∉ rest.flatten := fun hmem => hdisj hfg hmem
      have : rest.countP (fun g => g.contains f) = 0 := by
        rw [List.countP_eq_zero]
        intro g' hg' hcont
        exact hnotrest (List.mem_flatten.mpr ⟨g', hg', by simpa [List.elem_iff] using hcont⟩)
      omega
    · rw [List.countP_cons_of_neg _ _ (by simpa [List.elem_iff] using hfg)]
      exact ih hrest (by
        rcases List.mem_append.mp hf with h | h
        · exact absurd h hfg
        · exact h)

/-- Sorting a group by id does not change the membership test used by the
grouping operations. -/
theorem contains_sortedById (g : List Filament) (f : Filament) :
    (sortedById g).contains f = g.contains f := by
  simp only [List.elem_eq_mem, (sortedById_perm g).mem_iff]

/-- How many stored groups contain a filament is decided by the raw input
groups (sorting twice never merges or splits groups). -/
theorem mk_countP_groups (gs : List (List Filament)) (G : FilamentGrouping)
    (h : mkFilamentGrouping gs = .ok G) (f : Filament) :
    G.groups.countP (fun g => g.contains f) = gs.countP (fun g => g.contains f) := by
  have hG : G.groups = sortedByLen (gs.map sortedById) := by
    simp only [mkFilamentGrouping] at h
    split at h
    · cases h
      rfl
    · cases h
  rw [hG, (sortedByLen_perm (gs.map sortedById)).countP_eq,
    List.countP_map]
  exact List.countP_congr (fun g _ => by
    simp only [Function.comp_apply, contains_sortedById])

/-- C7 (amended): grouping construction fails iff some filament occurs at
least twice across the flattened explicit groups (also when both occurrences
are inside a single group, which the claim's "two groups" wording misses);
on failure the error reports exactly the filaments occurring at least twice;
and every `from_list` universe member ends up in exactly one stored group on
success. -/
theorem c7_amended :
    (∀ gs : List (List Filament),
      (∃ G, mkFilamentGrouping gs = .ok G) ↔ gs.flatten.Nodup)
    ∧ (∀ gs : List (List Filament), ¬ gs.flatten.Nodup →
        ∃ d, mkFilamentGrouping gs = .error (.duplicateGroups d)
          ∧ ∀ f : Filament, f ∈ d ↔ 2 ≤ gs.flatten.count f)
    ∧ (∀ (gs : List (List Nat)) (all_filaments : List Nat) (G : FilamentGrouping),
        FilamentGrouping.from_list gs all_filaments = .ok G →
        ∀ f ∈ all_filaments, G.groups.countP (fun g => g.contains f) = 1) := by
  refine ⟨mk_ok_iff_nodup, ?_, ?_⟩
  · intro gs hnd
    cases hmk : mkFilamentGrouping gs with
    | ok G => exact absurd ((mk_ok_iff_nodup gs).mp ⟨G, hmk⟩) hnd
    | error e =>
      simp only [mkFilamentGrouping] at hmk
      split at hmk
      · cases hmk
      · cases hmk
        refine ⟨_, rfl, fun f => ?_⟩
        rw [List.mem_dedup, List.mem_filter]
        constructor
        · rintro ⟨-, h2⟩
          simpa using h2
        · intro h2
          refine ⟨List.count_pos_iff.mp (by omega), by simpa using h2⟩
  · intro gs all_filaments G hfl f hf
    simp only [FilamentGrouping.from_list] at hfl
    split at hfl
    · cases hfl
    · rename_i hfind
      set singles := (all_filaments.filter
        (fun f => !gs.flatten.contains f)).map (fun f => [f]) with hsingles
      have hnd : (gs ++ singles).flatten.Nodup :=
        (mk_ok_iff_nodup (gs ++ singles)).mp ⟨G, hfl⟩
      have hsf : singles.flatten = all_filaments.filter
          (fun f => !gs.flatten.contains f) := by
        rw [hsingles]
        generalize all_filaments.filter (fun f => !gs.flatten.contains f) = l
        induction l with
        | nil => rfl
        | cons a as ih => simp [ih]
      have hmem : f ∈ (gs ++ singles).flatten := by
        rw [List.flatten_append, List.mem_append]
        by_cases hgs : f ∈ gs.flatten
        · exact Or.inl hgs
        · refine Or.inr ?_
          rw [hsf, List.mem_filter]
          refine ⟨hf, ?_⟩
          simp [List.elem_eq_mem, hgs]
      rw [mk_countP_groups _ _ hfl]
      exact countP_groups_of_nodup_flatten _ _ hnd hmem

/-- C7 witness: the amended characterisation at concrete inputs — a
duplicate-free grouping constructs, a duplicated filament is reported, and a
`from_list` universe member lands in exactly one stored group. -/
theorem c7_witness :
    (∃ G, mkFilamentGrouping [[0, 1], [2]] = .ok G)
    ∧ (∃ d, mkFilamentGrouping [[3], [3]] = .error (.duplicateGroups d) ∧ 3 ∈ d)
    ∧ (⟨[[1], [3], [0, 2]]⟩ : FilamentGrouping).groups.countP
        (fun g => g.contains 1) = 1 := by
  refine ⟨(c7_amended.1 [[0, 1], [2]]).mpr (by decide), ?_, ?_⟩
  · obtain ⟨d, hd, hiff⟩ := c7_amended.2.1 [[3], [3]] (by decide)
    exact ⟨d, hd, (hiff 3).mpr (by decide)⟩
  · exact c7_amended.2.2 [[0, 2]] [0, 1, 2, 3] ⟨[[1], [3], [0, 2]]⟩ rfl 1 (by decide)

/-! ## Claim C9 (amended): storage order of the groups -/

/-- Membership across an insertion step of the stable size sort. -/
theorem mem_insertByLen (x a : List Filament) (l : List (List Filament)) :
    a ∈ insertByLen x l ↔ a = x ∨ a ∈ l := by
  rw [(insertByLen_perm x l).mem_iff, List.mem_cons]

/-- Inserting into a size-sorted accumulator keeps it size-sorted. -/
theorem insertByLen_sorted (x : List Filament) (l : List (List Filament))
    (hl : l.Pairwise (fun a b => a.length ≤ b.length)) :
    (insertByLen x l).Pairwise (fun a b => a.length ≤ b.length) := by
  induction l with
  | nil => simp [insertByLen]
  | cons y ys ih =>
    rw [List.pairwise_cons] at hl
    obtain ⟨hy, hys⟩ := hl
    simp only [insertByLen]
    split
    · rename_i hlen
      rw [List.pairwise_cons]
      refine ⟨fun a ha => ?_, ih hys⟩
      rcases (mem_insertByLen x a ys).mp ha with rfl | ha
      · exact hlen
      · exact hy a ha
    · rename_i hlen
      rw [List.pairwise_cons]
      refine ⟨fun a ha => ?_, List.pairwise_cons.mpr ⟨hy, hys⟩⟩
      rcases List.mem_cons.mp ha with rfl | ha
      · omega
      · exact le_trans (by omega) (hy a ha)

/-- The stable size sort sorts by ascending size. -/
theorem sortedByLen_sorted (gs : List (List Filament)) :
    (sortedByLen gs).Pairwise (fun a b => a.length ≤ b.length) := by
  suffices h : ∀ (l acc : List (List Filament)),
      acc.Pairwise (fun a b => a.length ≤ b.length) →
      (l.foldl (fun acc x => insertByLen x acc) acc).Pairwise
        (fun a b => a.length ≤ b.length) by
    exact h gs [] (by simp)
  intro l
  induction l with
  | nil => exact fun acc h => h
  | cons x xs ih => exact fun acc h => ih _ (insertByLen_sorted x acc h)

/-- Stability of one insertion: among groups of any fixed size, the inserted
group goes last (sortedness of the accumulator is essential). -/
theorem insertByLen_filter (x : List Filament) (l : List (List Filament)) (n : Nat)
    (hl : l.Pairwise (fun a b => a.length ≤ b.length)) :
    (insertByLen x l).filter (fun g => g.length == n) =
      if x.length == n then l.filter (fun g => g.length == n) ++ [x]
      else l.filter (fun g => g.length == n) := by
  induction l with
  | nil =>
    simp only [insertByLen, List.filter_nil]
    split <;> simp_all
  | cons y ys ih =>
    rw [List.pairwise_cons] at hl
    obtain ⟨hy, hys⟩ := hl
    simp only [insertByLen]
    split
    · rename_i hlen
      rw [List.filter_cons, List.filter_cons]
      by_cases hyn : (y.length == n) = true
      · simp only [hyn, if_true]
        rw [ih hys]
        split <;> simp
      · simp only [hyn, Bool.false_eq_true, if_false]
        exact ih hys
    · rename_i hlen
      by_cases hxn : (x.length == n) = true
      · have hrest : (y :: ys).filter (fun g => g.length == n) = [] := by
          rw [List.filter_eq_nil_iff]
          intro a ha
          have hlen2 : y.length ≤ a.length := by
            rcases List.mem_cons.mp ha with rfl | ha
            · exact le_refl _
            · exact hy a ha
          have := beq_iff_eq.mp hxn
          simp only [beq_iff_eq]
          omega
        rw [List.filter_cons_of_pos (by exact hxn), hrest]
        simp [hxn]
      · simp only [hxn, Bool.false_eq_true, if_false]
        rw [List.filter_cons_of_neg (by simpa using hxn)]

/-- Stability of the stable size sort: the groups of any fixed size appear
in their input order. -/
theorem sortedByLen_filter (gs : List (List Filament)) (n : Nat) :
    (sortedByLen gs).filter (fun g => g.length == n) =
      gs.filter (fun g => g.length == n) := by
  suffices h : ∀ (l acc : List (List Filament)),
      acc.Pairwise (fun a b => a.length ≤ b.length) →
      (l.foldl (fun acc x => insertByLen x acc) acc).filter (fun g => g.length == n) =
        acc.filter (fun g => g.length == n) ++ l.filter (fun g => g.length == n) by
    simpa using h gs [] (by simp)
  intro l
  induction l with
  | nil => simp
  | cons x xs ih =>
    intro acc hacc
    rw [List.foldl_cons, ih _ (insertByLen_sorted x acc hacc),
      insertByLen_filter x acc n hacc, List.filter_cons]
    split <;> simp

/-- Membership across an insertion step of the stable id sort. -/
theorem mem_insertById (x a : Filament) (l : List Filament) :
    a ∈ insertById x l ↔ a = x ∨ a ∈ l := by
  rw [(insertById_perm x l).mem_iff, List.mem_cons]

/-- Inserting into an id-sorted group keeps it id-sorted. -/
theorem insertById_sorted (x : Filament) (l : List Filament)
    (hl : l.Pairwise (· ≤ ·)) : (insertById x l).Pairwise (· ≤ ·) := by
  induction l with
  | nil => simp [insertById]
  | cons y ys ih =>
    rw [List.pairwise_cons] at hl
    obtain ⟨hy, hys⟩ := hl
    simp only [insertById]
    split
    · rename_i hle
      rw [List.pairwise_cons]
      refine ⟨fun a ha => ?_, ih hys⟩
      rcases (mem_insertById x a ys).mp ha with rfl | ha
      · exact hle
      · exact hy a ha
    · rename_i hle
      rw [List.pairwise_cons]
      refine ⟨fun a ha => ?_, List.pairwise_cons.mpr ⟨hy, hys⟩⟩
      rcases List.mem_cons.mp ha with rfl | ha
      · exact le_of_not_le hle
      · exact le_trans (le_of_not_le hle) (hy a ha)

/-- The stable id sort sorts each group ascending. -/
theorem sortedById_sorted (g : List Filament) :
    (sortedById g).Pairwise (· ≤ ·) := by
  suffices h : ∀ (l acc : List Filament), acc.Pairwise (· ≤ ·) →
      (l.foldl (fun acc x => insertById x acc) acc).Pairwise (· ≤ ·) by
    exact h g [] (by simp)
  intro l
  induction l with
  | nil => exact fun acc h => h
  | cons x xs ih => exact fun acc h => ih _ (insertById_sorted x acc h)

/-- The stored field of a successful construction. -/
theorem mk_groups_eq (gs : List (List Filament)) (G : FilamentGrouping)
    (h : mkFilamentGrouping gs = .ok G) :
    G.groups = sortedByLen (gs.map sortedById) := by
  simp only [mkFilamentGrouping] at h
  split at h
  · cases h
    rfl
  · cases h

/-- C9 (amended): the stored groups are the input groups each sorted by
ascending id, stably sorted by ascending size: a permutation of the
id-sorted input groups, pairwise non-decreasing in size, and — in place of
the claim's "ascending minimum id" tie-break — groups of any equal size keep
their input order (Python's `sorted(key=len)` is stable and compares sizes
only). -/
theorem c9_amended (gs : List (List Filament)) (G : FilamentGrouping)
    (h : mkFilamentGrouping gs = .ok G) :
    List.Perm G.groups (gs.map sortedById)
    ∧ G.groups.Pairwise (fun a b => a.length ≤ b.length)
    ∧ (∀ n, G.groups.filter (fun g => g.length == n) =
        (gs.map sortedById).filter (fun g => g.length == n))
    ∧ (∀ g ∈ G.groups, g.Pairwise (· ≤ ·)) := by
  have hG := mk_groups_eq gs G h
  rw [hG]
  refine ⟨sortedByLen_perm _, sortedByLen_sorted _, fun n => sortedByLen_filter _ n,
    fun g hg => ?_⟩
  have hg2 : g ∈ gs.map sortedById := (sortedByLen_perm _).mem_iff.mp hg
  obtain ⟨g0, -, rfl⟩ := List.mem_map.mp hg2
  exact sortedById_sorted g0

/-- C9 witness: the amended description at a concrete grouping with an
equal-size tie (`[2]` stays before `[1]`). -/
theorem c9_witness :
    List.Perm (FilamentGrouping.mk [[2], [1], [0, 3]]).groups
      (([[2], [1], [0, 3]] : List (List Filament)).map sortedById)
    ∧ (FilamentGrouping.mk [[2], [1], [0, 3]]).groups.Pairwise
        (fun a b => a.length ≤ b.length)
    ∧ (∀ n, (FilamentGrouping.mk [[2], [1], [0, 3]]).groups.filter
          (fun g => g.length == n) =
        (([[2], [1], [0, 3]] : List (List Filament)).map sortedById).filter
          (fun g => g.length == n))
    ∧ (∀ g ∈ (FilamentGrouping.mk [[2], [1], [0, 3]]).groups,
        g.Pairwise (· ≤ ·)) :=
  c9_amended [[2], [1], [0, 3]] ⟨[[2], [1], [0, 3]]⟩ rfl

/-! ## Claim C8 (amended): the scanner's sentinel destination codes -/

/-- `takeWhile` keeps an all-satisfying list whole. -/
theorem takeWhile_of_all (p : Char → Bool) (l : List Char) (h : l.all p = true) :
    l.takeWhile p = l := by
  induction l with
  | nil => rfl
  | cons a as ih =>
    rw [List.all_cons, Bool.and_eq_true] at h
    rw [List.takeWhile_cons, if_pos h.1, ih h.2]

/-- A `T`-prefixed line parses to its leading digit group. -/
theorem matchT_T_append (s : String) (h1 : s.data ≠ [])
    (h2 : s.data.all Char.isDigit = true) :
    matchT ("T" ++ s).data = some s.data := by
  have hdata : ("T" ++ s).data = 'T' :: s.data := by
    rw [String.data_append]
    rfl
  rw [hdata]
  simp only [matchT, takeWhile_of_all _ _ h2]
  rw [if_neg (by simpa [List.isEmpty_iff] using h1)]

/-- C8 (amended): for a tool-change line `T<digits>` followed by a block-end
marker, the scanner emits no event when the digit group is one of the three
sentinel codes `255`, `1000`, `1100`, and exactly one `ToolChange` event for
any other digit group (given its color is mapped). -/
theorem c8_amended (s : String) (h1 : s.data ≠ [])
    (h2 : s.data.all Char.isDigit = true) (c : String) :
    iter_from_gcode ["T" ++ s, "; CP TOOLCHANGE END"] [(digitsToNat s.data, c)] =
      if sentinelCodes.contains s.data then .ok []
      else .ok [⟨0, none, digitsToNat s.data, 0, none, 1⟩] := by
  have hdata : ("T" ++ s).data = 'T' :: s.data := by
    rw [String.data_append]
    rfl
  have hnostart : strStartsWith ("T" ++ s) "; CP TOOLCHANGE START" = false := by
    simp only [strStartsWith, hdata]
    rfl
  have hnoend : strStartsWith ("T" ++ s) "; CP TOOLCHANGE END" = false := by
    simp only [strStartsWith, hdata]
    rfl
  have hm73 : matchM73L ("T" ++ s).data = none := by
    rw [hdata]
    rfl
  simp only [iter_from_gcode, scanGo, hnostart, if_false, hm73,
    matchT_T_append s h1 h2]
  split
  · rfl
  · simp only [findEndIndex, findEndAux, hnoend, Bool.false_eq_true, if_false,
      List.drop_zero]
    simp only [lookupColor, List.find?, beq_self_eq_true, Option.map_some]
    rfl

/-- C8 witness: the amended statement at the concrete destinations `7` (one
event) and `255` (skipped sentinel). -/
theorem c8_witness :
    iter_from_gcode ["T7", "; CP TOOLCHANGE END"] [(7, "gray")] =
      .ok [⟨0, none, 7, 0, none, 1⟩]
    ∧ iter_from_gcode ["T255", "; CP TOOLCHANGE END"] [(255, "gray")] = .ok [] := by
  constructor
  · have h := c8_amended "7" (by decide) (by decide) "gray"
    rw [if_neg (by decide)] at h
    exact h
  · have h := c8_amended "255" (by decide) (by decide) "gray"
    rw [if_pos (by decide)] at h
    exact h

/-! ## Claims C1 and C10: the simulator pass -/

/-- Successful construction yields a well-formed grouping. -/
theorem WF_of_mk (gs : List (List Filament)) (G : FilamentGrouping)
    (h : mkFilamentGrouping gs = .ok G) : WFGrouping G :=
  ((mk_groups_flatten_perm gs G h).nodup_iff).mpr ((mk_ok_iff_nodup gs).mp ⟨G, h⟩)

/-- In a duplicate-free list of groups, the group containing a filament is
unique. -/
theorem nodup_flatten_group_unique (L : List (List Filament))
    (hnd : L.flatten.Nodup) (g g' : List Filament) (hg : g ∈ L) (hg' : g' ∈ L)
    (f : Filament) (hf : f ∈ g) (hf' : f ∈ g') : g = g' := by
  induction L with
  | nil => simp at hg
  | cons a rest ih =>
    simp only [List.flatten_cons] at hnd
    obtain ⟨-, hrest, hdisj⟩ := List.nodup_append.mp hnd
    rcases List.mem_cons.mp hg with rfl | hgr
    · rcases List.mem_cons.mp hg' with rfl | hgr'
      · rfl
      · exact absurd (List.mem_flatten.mpr ⟨g', hgr', hf'⟩) (fun hm => hdisj hf hm)
    · rcases List.mem_cons.mp hg' with rfl | hgr'
      · exact absurd (List.mem_flatten.mpr ⟨g, hgr, hf⟩) (fun hm => hdisj hf' hm)
      · exact ih hrest hgr hgr'

/-- The group uniqueness, phrased on a grouping. -/
theorem group_unique (G : FilamentGrouping) (hWF : WFGrouping G)
    (g g' : List Filament) (hg : g ∈ G.groups) (hg' : g' ∈ G.groups)
    (f : Filament) (hf : f ∈ g) (hf' : f ∈ g') : g = g' :=
  nodup_flatten_group_unique G.groups hWF g g' hg hg' f hf hf'

/-- `idxOfP` finds nothing iff nothing satisfies the test. -/
theorem idxOfP_eq_none_iff (p : α → Bool) (l : List α) :
    idxOfP p l = none ↔ ∀ a ∈ l, p a = false := by
  induction l with
  | nil => simp [idxOfP]
  | cons a as ih =>
    simp only [idxOfP]
    by_cases hpa : p a = true
    · simp [hpa]
    · rw [if_neg hpa]
      rw [Bool.not_eq_true] at hpa
      simp [hpa, ih]

/-- `idxOfP` finds an index iff something satisfies the test. -/
theorem idxOfP_isSome_iff (p : α → Bool) (l : List α) :
    (idxOfP p l).isSome = true ↔ ∃ a ∈ l, p a = true := by
  induction l with
  | nil => simp [idxOfP]
  | cons a as ih =>
    simp only [idxOfP]
    by_cases hpa : p a = true
    · simp [hpa]
    · rw [if_neg hpa]
      rw [Bool.not_eq_true] at hpa
      simp [hpa, ih]

/-- The index returned by `idxOfP` is in range and satisfies the test. -/
theorem idxOfP_eq_some (p : α → Bool) (l : List α) (i : Nat)
    (h : idxOfP p l = some i) : ∃ hlt : i < l.length, p l[i] = true := by
  induction l generalizing i with
  | nil => simp [idxOfP] at h
  | cons a as ih =>
    simp only [idxOfP] at h
    by_cases hpa : p a = true
    · rw [if_pos hpa] at h
      cases h
      exact ⟨by simp, hpa⟩
    · rw [if_neg hpa] at h
      cases hrec : idxOfP p as with
      | none => rw [hrec] at h; simp at h
      | some j =>
        rw [hrec] at h
        simp only [Option.map] at h
        cases h
        obtain ⟨hlt, hp⟩ := ih j hrec
        exact ⟨by simpa using Nat.succ_lt_succ hlt, by simpa using hp⟩

/-- Two members of one stored group are grouped. -/
theorem is_grouped_of_both_mem (G : FilamentGrouping) (g : List Filament)
    (hg : g ∈ G.groups) (a b : Filament) (ha : a ∈ g) (hb : b ∈ g) :
    is_grouped G a b = true := by
  simp only [is_grouped, List.any_eq_true]
  exact ⟨g, hg, by simp [List.elem_eq_mem, ha, hb]⟩

/-- Being grouped means sharing some stored group. -/
theorem is_grouped_true_iff (G : FilamentGrouping) (a b : Filament) :
    is_grouped G a b = true ↔ ∃ g ∈ G.groups, a ∈ g ∧ b ∈ g := by
  simp [is_grouped, List.any_eq_true, List.elem_eq_mem]

/-- Unfolding a successful `find_index`. -/
theorem find_index_ok (G : FilamentGrouping) (ams : List Filament) (f : Filament)
    (idx : Option Nat) (h : find_index G ams f = .ok idx) :
    ∃ grp, find_filament_group G f = some grp
      ∧ idxOfP (fun cur => grp.contains cur) ams = idx := by
  simp only [find_index] at h
  split at h
  · cases h
  · rename_i grp hgrp
    cases h
    exact ⟨grp, hgrp, rfl⟩

/-- The membership facts behind `find_filament_group`. -/
theorem find_filament_group_some (G : FilamentGrouping) (f : Filament)
    (grp : List Filament) (h : find_filament_group G f = some grp) :
    grp ∈ G.groups ∧ f ∈ grp := by
  refine ⟨List.mem_of_find?_eq_some h, ?_⟩
  have := List.find?_some h
  simpa [List.elem_eq_mem] using this

/-- Under well-formedness, scanning the slot array for a member of the next
filament's group is the same test as "some slot holds a filament grouped
with the next one". -/
theorem idxOfP_isSome_eq_any_grouped (G : FilamentGrouping) (hWF : WFGrouping G)
    (next : Filament) (grp : List Filament)
    (hfind : find_filament_group G next = some grp) (ams : List Filament) :
    (idxOfP (fun cur => grp.contains cur) ams).isSome
      = ams.any (fun r => is_grouped G r next) := by
  obtain ⟨hgmem, hnmem⟩ := find_filament_group_some G next grp hfind
  cases hval : ams.any (fun r => is_grouped G r next) with
  | true =>
    obtain ⟨r, hr, hgr⟩ := List.any_eq_true.mp hval
    obtain ⟨g, hgg, hrg, hng⟩ := (is_grouped_true_iff G r next).mp hgr
    have hgeq : g = grp := group_unique G hWF g grp hgg hgmem next hng hnmem
    exact (idxOfP_isSome_iff _ ams).mpr ⟨r, hr, by simp [List.elem_eq_mem, hgeq ▸ hrg]⟩
  | false =>
    by_contra hne
    rw [Bool.not_eq_false] at hne
    obtain ⟨r, hr, hrg⟩ := (idxOfP_isSome_iff _ ams).mp hne
    have hrmem : r ∈ grp := by simpa [List.elem_eq_mem] using hrg
    have : is_grouped G r next = true := is_grouped_of_both_mem G grp hgmem r next hrmem hnmem
    have : ams.any (fun r => is_grouped G r next) = true := List.any_eq_true.mpr ⟨r, hr, this⟩
    rw [hval] at this
    cases this

/-- Anatomy of a successful simulator step: the classification result, the
group lookup, and the two possible state updates. -/
theorem stepTC_ok_cases (G : FilamentGrouping) (ams_size : Nat) (ams : List Filament)
    (tc : ToolChange) (ev : Option ManualToolChange) (ams₂ : List Filament)
    (h : stepTC G ams_size ams tc = .ok (ev, ams₂)) :
    ∃ m grp, tc.is_manual ams G = .ok m
      ∧ ev = (if m then some ⟨tc, ams⟩ else none)
      ∧ find_filament_group G tc.next_filament = some grp
      ∧ ((idxOfP (fun cur => grp.contains cur) ams = none
            ∧ (ams.length == ams_size) = false
            ∧ ams₂ = ams ++ [tc.next_filament])
        ∨ (∃ i, idxOfP (fun cur => grp.contains cur) ams = some i
            ∧ ams₂ = ams.set i tc.next_filament)) := by
  simp only [stepTC] at h
  split at h
  · cases h
  · rename_i m hm
    split at h
    · cases h
    · rename_i hfi
      obtain ⟨grp, hgrp, hidx⟩ := find_index_ok G ams tc.next_filament none hfi
      split at h
      · cases h
      · rename_i hlen
        cases h
        refine ⟨m, grp, hm, rfl, hgrp, Or.inl ⟨hidx, ?_, rfl⟩⟩
        simpa using hlen
    · rename_i i hfi
      obtain ⟨grp, hgrp, hidx⟩ := find_index_ok G ams tc.next_filament (some i) hfi
      cases h
      exact ⟨m, grp, hm, rfl, hgrp, Or.inr ⟨i, hidx, rfl⟩⟩

/-- A successful step preserves the slot-array invariant (claim C10's
preservation core). -/
theorem stepTC_inv (G : FilamentGrouping) (hWF : WFGrouping G) (ams_size : Nat)
    (ams : List Filament) (tc : ToolChange) (ev : Option ManualToolChange)
    (ams₂ : List Filament) (hInv : AmsInv G ams_size ams)
    (h : stepTC G ams_size ams tc = .ok (ev, ams₂)) : AmsInv G ams_size ams₂ := by
  obtain ⟨hlen, hall, hpw⟩ := hInv
  obtain ⟨m, grp, -, -, hgrp, hcase⟩ := stepTC_ok_cases G ams_size ams tc ev ams₂ h
  obtain ⟨hgmem, hnmem⟩ := find_filament_group_some G tc.next_filament grp hgrp
  rcases hcase with ⟨hnone, hne, rfl⟩ | ⟨i, hsome, rfl⟩
  · have hlt : ams.length < ams_size := by
      have : ams.length ≠ ams_size := by simpa using hne
      omega
    refine ⟨by simpa using hlt, ?_, ?_⟩
    · intro f hf
      rcases List.mem_append.mp hf with hf | hf
      · exact hall f hf
      · rw [List.mem_singleton.mp hf, hgrp]
        rfl
    · rw [List.pairwise_append]
      refine ⟨hpw, by simp, fun r hr b hb => ?_⟩
      rw [List.mem_singleton.mp hb]
      by_contra hne2
      rw [Bool.not_eq_false] at hne2
      obtain ⟨g, hgg, hrg, hng⟩ := (is_grouped_true_iff G r tc.next_filament).mp hne2
      have hgeq : g = grp :=
        group_unique G hWF g grp hgg hgmem tc.next_filament hng hnmem
      have : grp.contains r = false :=
        (idxOfP_eq_none_iff _ ams).mp hnone r hr
      simp only [List.elem_eq_mem, decide_eq_false_iff_not] at this
      exact this (hgeq ▸ hrg)
  · obtain ⟨hilt, hicont⟩ := idxOfP_eq_some _ ams i hsome
    have himem : ams[i] ∈ grp := by simpa [List.elem_eq_mem] using hicont
    refine ⟨by simpa using hlen, ?_, ?_⟩
    · intro f hf
      rcases List.mem_or_eq_of_mem_set hf with hf | rfl
      · exact hall f hf
      · rw [hgrp]
        rfl
    · have hpwg := List.pairwise_iff_getElem.mp hpw
      rw [List.pairwise_iff_getElem]
      intro a b ha hb hab
      rw [List.length_set] at ha hb
      by_cases hia : i = a
      · subst hia
        rw [List.getElem_set, if_pos rfl, List.getElem_set, if_neg (by omega)]
        by_contra hne2
        rw [Bool.not_eq_false] at hne2
        obtain ⟨g, hgg, hng, hbg⟩ :=
          (is_grouped_true_iff G tc.next_filament ams[b]).mp hne2
        have hgeq : g = grp :=
          group_unique G hWF g grp hgg hgmem tc.next_filament hng hnmem
        have hgab : is_grouped G ams[i] ams[b] = true :=
          is_grouped_of_both_mem G grp hgmem ams[i] ams[b] himem (hgeq ▸ hbg)
        have := hpwg i b hilt hb hab
        rw [this] at hgab
        cases hgab
      · by_cases hib : i = b
        · subst hib
          rw [List.getElem_set, if_neg hia, List.getElem_set, if_pos rfl]
          by_contra hne2
          rw [Bool.not_eq_false] at hne2
          obtain ⟨g, hgg, hag, hng⟩ :=
            (is_grouped_true_iff G ams[a] tc.next_filament).mp hne2
          have hgeq : g = grp :=
            group_unique G hWF g grp hgg hgmem tc.next_filament hng hnmem
          have hgab : is_grouped G ams[a] ams[i] = true :=
            is_grouped_of_both_mem G grp hgmem ams[a] ams[i] (hgeq ▸ hag) himem
          have := hpwg a i ha hilt (by omega)
          rw [this] at hgab
          cases hgab
        · rw [List.getElem_set, if_neg hia, List.getElem_set, if_neg hib]
          exact hpwg a b ha hb hab

/-- Under well-formedness the code's classification agrees with the spec's:
manual iff not slot-resident and some slot holds a same-group filament. -/
theorem is_manual_ok_eq (G : FilamentGrouping) (hWF : WFGrouping G)
    (ams : List Filament) (tc : ToolChange) (m : Bool) (grp : List Filament)
    (hm : tc.is_manual ams G = .ok m)
    (hgrp : find_filament_group G tc.next_filament = some grp) :
    m = manualSpecCond G ams tc := by
  simp only [ToolChange.is_manual] at hm
  by_cases hc : ams.contains tc.next_filament = true
  · rw [if_pos hc] at hm
    cases hm
    simp only [manualSpecCond, hc, Bool.not_true, Bool.false_and]
  · rw [if_neg hc] at hm
    have hfi : find_index G ams tc.next_filament =
        .ok (idxOfP (fun cur => grp.contains cur) ams) := by
      simp [find_index, hgrp]
    simp only [hfi] at hm
    cases hm
    rw [idxOfP_isSome_eq_any_grouped G hWF tc.next_filament grp hgrp ams]
    rw [Bool.not_eq_true] at hc
    simp only [manualSpecCond, hc, Bool.not_false, Bool.true_and]

/-- Anatomy of a successful pass over a first tool change. -/
theorem iterTC_cons_ok (G : FilamentGrouping) (ams_size : Nat) (tc : ToolChange)
    (rest : List ToolChange) (ams : List Filament) (evs : List ManualToolChange)
    (h : iterTC G ams_size (tc :: rest) ams = .ok evs) :
    ∃ ev ams' evs', stepTC G ams_size ams tc = .ok (ev, ams')
      ∧ iterTC G ams_size rest ams' = .ok evs'
      ∧ evs = ev.toList ++ evs' := by
  simp only [iterTC] at h
  split at h
  · cases h
  · rename_i ev ams' hstep
    split at h
    · cases h
    · rename_i evs' hrest
      cases h
      exact ⟨ev, ams', evs', hstep, hrest, rfl⟩

/-- The slot trajectory across a successful first step. -/
theorem amsStates_cons (G : FilamentGrouping) (ams_size : Nat) (tc : ToolChange)
    (rest : List ToolChange) (ams : List Filament) (ev : Option ManualToolChange)
    (ams' : List Filament) (hstep : stepTC G ams_size ams tc = .ok (ev, ams')) :
    amsStates G ams_size (tc :: rest) ams = ams :: amsStates G ams_size rest ams' := by
  simp [amsStates, hstep]

/-- C1 core: a successful pass emits exactly the spec-side event stream,
each event carrying the slot state before its own transition. -/
theorem iterTC_spec (G : FilamentGrouping) (hWF : WFGrouping G) (ams_size : Nat) :
    ∀ (tcs : List ToolChange) (ams : List Filament) (evs : List ManualToolChange),
    iterTC G ams_size tcs ams = .ok evs →
    evs = (tcs.zip (amsStates G ams_size tcs ams)).filterMap
      (fun p => if manualSpecCond G p.2 p.1 then some ⟨p.1, p.2⟩ else none) := by
  intro tcs
  induction tcs with
  | nil =>
    intro ams evs h
    simp only [iterTC] at h
    cases h
    rfl
  | cons tc rest ih =>
    intro ams evs h
    obtain ⟨ev, ams', evs', hstep, hrest, rfl⟩ :=
      iterTC_cons_ok G ams_size tc rest ams evs h
    obtain ⟨m, grp, hm, hev, hgrp, -⟩ :=
      stepTC_ok_cases G ams_size ams tc ev ams' hstep
    rw [amsStates_cons G ams_size tc rest ams ev ams' hstep, List.zip_cons_cons,
      List.filterMap_cons, ← ih ams' evs' hrest]
    have hmeq : m = manualSpecCond G ams tc := is_manual_ok_eq G hWF ams tc m grp hm hgrp
    rw [hev, hmeq]
    by_cases hms : manualSpecCond G ams tc = true
    · rw [hms]
      simp
    · rw [Bool.not_eq_true] at hms
      rw [hms]
      simp

/-- C1: for every simulation pass over a fixed grouping (a successfully
constructed one) that runs to completion, the emitted stream equals the
spec-side stream: an event exactly when the next filament is not slot-equal
to any occupant and some slot holds a same-group filament, and each event
carries the pre-transition slot array (unaffected by later transitions,
which is inherent in the snapshot list the pass returns). -/
theorem c1_manual_classification (gs : List (List Filament)) (G : FilamentGrouping)
    (ams_size : Nat) (tcs : List ToolChange) (evs : List ManualToolChange)
    (hmk : mkFilamentGrouping gs = .ok G)
    (hrun : iter_manual_toolchanges G ams_size tcs = .ok evs) :
    evs = manualSpecEvents G ams_size tcs :=
  iterTC_spec G (WF_of_mk gs G hmk) ams_size tcs [] evs hrun

/-- C1 witness: a concrete pass with one manual change; the snapshot it
carries is the slot state before that change. -/
theorem c1_witness :
    [⟨⟨0, some 0, 1, 1, none, 1⟩, [0]⟩] =
      manualSpecEvents ⟨[[0, 1]]⟩ 1
        [⟨0, none, 0, 0, none, 0⟩, ⟨0, some 0, 1, 1, none, 1⟩] :=
  c1_manual_classification [[0, 1]] ⟨[[0, 1]]⟩ 1
    [⟨0, none, 0, 0, none, 0⟩, ⟨0, some 0, 1, 1, none, 1⟩]
    [⟨⟨0, some 0, 1, 1, none, 1⟩, [0]⟩] rfl rfl

/-- The invariant holds along the whole trajectory of a successful pass. -/
theorem amsStates_inv (G : FilamentGrouping) (hWF : WFGrouping G) (ams_size : Nat) :
    ∀ (tcs : List ToolChange) (ams : List Filament) (evs : List ManualToolChange),
    AmsInv G ams_size ams → iterTC G ams_size tcs ams = .ok evs →
    ∀ s ∈ amsStates G ams_size tcs ams, AmsInv G ams_size s := by
  intro tcs
  induction tcs with
  | nil =>
    intro ams evs hInv h s hs
    simp only [amsStates, List.mem_singleton] at hs
    exact hs ▸ hInv
  | cons tc rest ih =>
    intro ams evs hInv h s hs
    obtain ⟨ev, ams', evs', hstep, hrest, -⟩ :=
      iterTC_cons_ok G ams_size tc rest ams evs h
    rw [amsStates_cons G ams_size tc rest ams ev ams' hstep] at hs
    rcases List.mem_cons.mp hs with rfl | hs
    · exact hInv
    · exact ih ams' evs'
        (stepTC_inv G hWF ams_size ams tc ev ams' hInv hstep) hrest s hs

/-- C10: throughout every non-failing simulation pass (over a successfully
constructed grouping) every slot state in the trajectory — hence the state
before and after every transition — has at most `ams_size` slots and no two
resident filaments of the same group. -/
theorem c10_slot_invariant (gs : List (List Filament)) (G : FilamentGrouping)
    (ams_size : Nat) (tcs : List ToolChange) (evs : List ManualToolChange)
    (hmk : mkFilamentGrouping gs = .ok G)
    (hrun : iter_manual_toolchanges G ams_size tcs = .ok evs) :
    ∀ s ∈ amsStates G ams_size tcs [],
      s.length ≤ ams_size ∧ s.Pairwise (fun a b => is_grouped G a b = false) := by
  intro s hs
  have hInv : AmsInv G ams_size ([] : List Filament) :=
    ⟨by simp, by simp, by simp⟩
  obtain ⟨h1, -, h3⟩ :=
    amsStates_inv G (WF_of_mk gs G hmk) ams_size tcs [] evs hInv hrun s hs
  exact ⟨h1, h3⟩

/-- C10 witness: the invariant at a concrete mid-pass state. -/
theorem c10_witness :
    ([0] : List Filament).length ≤ 1
      ∧ ([0] : List Filament).Pairwise
          (fun a b => is_grouped ⟨[[0, 1]]⟩ a b = false) :=
  c10_slot_invariant [[0, 1]] ⟨[[0, 1]]⟩ 1
    [⟨0, none, 0, 0, none, 0⟩, ⟨0, some 0, 1, 1, none, 1⟩]
    [⟨⟨0, some 0, 1, 1, none, 1⟩, [0]⟩] rfl rfl [0] (by decide)

/-! ## Claim C4: the optimizer keeps the last minimal-score candidate -/

/-- `lastMin` never misses a non-empty list. -/
theorem lastMin_eq_none_iff (ss : List (FilamentGrouping × Nat)) :
    lastMin ss = none ↔ ss = [] := by
  cases ss with
  | nil => simp [lastMin]
  | cons x rest =>
    simp only [lastMin]
    cases h : lastMin rest <;> simp_all [reduceCtorEq]
    split <;> simp

/-- Peeling one candidate off `lastMin`. -/
theorem lastMin_cons (s : FilamentGrouping × Nat) (ss : List (FilamentGrouping × Nat)) :
    lastMin (s :: ss) = optCombine (some s) (lastMin ss) := by
  cases h : lastMin ss <;> simp [lastMin, optCombine, h]

/-- Associativity of the best-merge with a singleton in the middle. -/
theorem optCombine_assoc (best : Option (FilamentGrouping × Nat))
    (s : FilamentGrouping × Nat) (L : Option (FilamentGrouping × Nat)) :
    optCombine (optCombine best (some s)) L = optCombine best (optCombine (some s) L) := by
  cases best with
  | none =>
    cases L with
    | none => rfl
    | some l =>
      simp only [optCombine]
      split <;> rfl
  | some b =>
    cases L with
    | none => simp only [optCombine]
    | some l =>
      simp only [optCombine]
      by_cases h1 : s.2 ≤ b.2 <;> by_cases h2 : l.2 ≤ s.2 <;>
        by_cases h3 : l.2 ≤ b.2 <;>
        simp [optCombine, h1, h2, h3] <;> omega

/-- The fold of `find_best_mapping` computes the last-minimum merge of the
scored candidates into the running best. -/
theorem fbmLoop_eq_lastMin (tcs : List ToolChange) (ams_size : Nat)
    (cands : List (List (List Filament))) (scored : List (FilamentGrouping × Nat))
    (hfa : List.Forall₂ (fun comb s => mkFilamentGrouping comb = .ok s.1
      ∧ ∃ evs, iter_manual_toolchanges s.1 ams_size tcs = .ok evs ∧ s.2 = evs.length)
      cands scored) :
    ∀ best, fbmLoop tcs ams_size cands best = .ok (optCombine best (lastMin scored)) := by
  induction hfa with
  | nil =>
    intro best
    simp [fbmLoop, lastMin, optCombine]
  | cons hR hrest ih =>
    rename_i comb s cs ss
    intro best
    obtain ⟨hmk, evs, hit, hn⟩ := hR
    simp only [fbmLoop, hmk, hit]
    rw [lastMin_cons, ← optCombine_assoc]
    have hstep : (match best with
        | none => some (s.1, evs.length)
        | some b => if evs.length ≤ b.2 then some (s.1, evs.length) else b)
        = optCombine best (some s) := by
      cases best with
      | none => simp [optCombine, ← hn]
      | some b => simp [optCombine, ← hn]
    rw [hstep]
    exact ih (optCombine best (some s))

/-- Appending to a list keeps its last element. -/
theorem getLast?_cons_of_ne_nil (x : FilamentGrouping × Nat)
    (l : List (FilamentGrouping × Nat)) (hl : l ≠ []) :
    (x :: l).getLast? = l.getLast? := by
  cases l with
  | nil => exact absurd rfl hl
  | cons y ys => rw [List.getLast?_cons_cons]

/-- What `lastMin` returns: a minimal-score entry that is the last entry
achieving that score. -/
theorem lastMin_spec (ss : List (FilamentGrouping × Nat)) (b : FilamentGrouping × Nat)
    (h : lastMin ss = some b) :
    b ∈ ss ∧ (∀ y ∈ ss, b.2 ≤ y.2)
      ∧ (ss.filter (fun s => s.2 == b.2)).getLast? = some b := by
  induction ss generalizing b with
  | nil => simp [lastMin] at h
  | cons x rest ih =>
    rw [lastMin_cons] at h
    cases hr : lastMin rest with
    | none =>
      rw [hr] at h
      have hrestnil : rest = [] := (lastMin_eq_none_iff rest).mp hr
      subst hrestnil
      simp only [optCombine] at h
      cases h
      refine ⟨by simp, by simp, ?_⟩
      simp
    | some b' =>
      rw [hr] at h
      obtain ⟨hmem, hmin, hlast⟩ := ih b' hr
      simp only [optCombine] at h
      split at h
      · rename_i hle
        cases h
        refine ⟨List.mem_cons_of_mem x hmem, ?_, ?_⟩
        · intro y hy
          rcases List.mem_cons.mp hy with rfl | hy
          · exact hle
          · exact hmin y hy
        · rw [List.filter_cons]
          split
          · refine (getLast?_cons_of_ne_nil x _ ?_).trans hlast
            intro hnil
            rw [hnil] at hlast
            simp at hlast
          · exact hlast
      · rename_i hle
        cases h
        refine ⟨List.mem_cons_self x rest, ?_, ?_⟩
        · intro y hy
          rcases List.mem_cons.mp hy with rfl | hy
          · exact le_refl _
          · exact le_trans (by omega) (hmin y hy)
        · rw [List.filter_cons, if_pos (by simp)]
          have hempty : rest.filter (fun s => s.2 == x.2) = [] := by
            rw [List.filter_eq_nil_iff]
            intro a ha
            have := hmin a ha
            simp only [beq_iff_eq]
            omega
          rw [hempty]
          rfl

/-- C4: when every candidate scores successfully (`scored` pairs each
enumerated partition with its grouping and manual count, in enumeration
order), the optimizer returns the LAST enumerated candidate achieving the
minimal manual-change count — every candidate scoring `≤` the current best
replaces it — along with that count and the total tool-change count. -/
theorem c4_last_min_wins (tcs : List ToolChange) (ams_size : Nat)
    (all_filaments : List Filament) (max_group_size : Option Nat)
    (scored : List (FilamentGrouping × Nat))
    (hsc : List.Forall₂ (fun comb s => mkFilamentGrouping comb = .ok s.1
        ∧ ∃ evs, iter_manual_toolchanges s.1 ams_size tcs = .ok evs ∧ s.2 = evs.length)
      (unique_k_partition all_filaments ams_size max_group_size) scored)
    (hne : scored ≠ []) :
    ∃ b, find_best_mapping tcs all_filaments ams_size max_group_size =
        .ok (some (b.1, b.2, tcs.length))
      ∧ b ∈ scored ∧ (∀ y ∈ scored, b.2 ≤ y.2)
      ∧ (scored.filter (fun s => s.2 == b.2)).getLast? = some b := by
  have hloop := fbmLoop_eq_lastMin tcs ams_size _ scored hsc none
  cases hlm : lastMin scored with
  | none => exact absurd ((lastMin_eq_none_iff scored).mp hlm) hne
  | some b =>
    rw [hlm] at hloop
    obtain ⟨hmem, hmin, hlast⟩ := lastMin_spec scored b hlm
    refine ⟨b, ?_, hmem, hmin, hlast⟩
    simp only [find_best_mapping, hloop, optCombine]

/-- C4 witness: three tied candidates — the optimizer returns the grouping
of the last enumerated partition, which is also the last minimal entry of
the scored list. -/
theorem c4_witness :
    find_best_mapping [] [0, 1, 2] 2 none =
      .ok (some (⟨[[0], [1, 2]]⟩, 0, 0))
    ∧ ([((⟨[[2], [0, 1]]⟩ : FilamentGrouping), (0 : Nat)), (⟨[[1], [0, 2]]⟩, 0),
        (⟨[[0], [1, 2]]⟩, 0)].filter (fun s => s.2 == 0)).getLast?
      = some (⟨[[0], [1, 2]]⟩, 0) := by
  have hfa : List.Forall₂ (fun comb s => mkFilamentGrouping comb = .ok s.1
      ∧ ∃ evs, iter_manual_toolchanges s.1 2 ([] : List ToolChange) = .ok evs
        ∧ s.2 = evs.length)
      (unique_k_partition [0, 1, 2] 2 none)
      [((⟨[[2], [0, 1]]⟩ : FilamentGrouping), (0 : Nat)), (⟨[[1], [0, 2]]⟩, 0),
        (⟨[[0], [1, 2]]⟩, 0)] :=
    .cons ⟨rfl, [], rfl, rfl⟩ (.cons ⟨rfl, [], rfl, rfl⟩
      (.cons ⟨rfl, [], rfl, rfl⟩ .nil))
  obtain ⟨b, h1, -, -, h4⟩ :=
    c4_last_min_wins [] 2 [0, 1, 2] none _ hfa (by simp)
  obtain ⟨b1, b2⟩ := b
  have h5 : Except.ok (ε := PyError)
      (some ((⟨[[0], [1, 2]]⟩ : FilamentGrouping), (0 : Nat), (0 : Nat))) =
      .ok (some ((b1, b2).1, (b1, b2).2, ([] : List ToolChange).length)) := by
    rw [← h1]
    rfl
  simp only [Except.ok.injEq, Option.some.injEq, Prod.mk.injEq,
    List.length_nil] at h5
  obtain ⟨hb1, hb2, -⟩ := h5
  subst hb1
  subst hb2
  exact ⟨h1, h4⟩

/-! ## Claim C2 (amended): the partition enumeration and the optimizer -/

/-- No partition has zero groups. -/
theorem ukp_zero (l : List Nat) (mgs : Option Nat) :
    unique_k_partition l 0 mgs = [] := by
  induction l with
  | nil => rfl
  | cons x xs ih =>
    cases xs with
    | nil => rfl
    | cons y ys =>
      simp only [unique_k_partition]
      rw [ih]
      simp

/-- Membership in the merge step, as a decomposition: `first` was prepended
to one subset, everything else is unchanged. -/
theorem mem_insertions (x : Nat) (mgs : Option Nat) (gs p : List (List Nat)) :
    p ∈ insertions x mgs gs ↔
      ∃ a g b, gs = a ++ g :: b ∧ allowSize mgs (g.length + 1) = true
        ∧ p = a ++ (x :: g) :: b := by
  induction gs generalizing p with
  | nil =>
    simp only [insertions, List.not_mem_nil, false_iff]
    rintro ⟨a, g, b, ha, -, -⟩
    exact absurd ha (by simp)
  | cons sub rest ih =>
    simp only [insertions, List.mem_append, List.mem_map]
    constructor
    · rintro (h | ⟨q, hq, rfl⟩)
      · have hsz : allowSize mgs (sub.length + 1) = true ∧ p = (x :: sub) :: rest := by
          by_cases hc : allowSize mgs (sub.length + 1) = true
          · rw [if_pos hc] at h
            exact ⟨hc, List.mem_singleton.mp h⟩
          · rw [if_neg hc] at h
            simp at h
        exact ⟨[], sub, rest, rfl, hsz.1, by simp [hsz.2]⟩
      · obtain ⟨a, g, b, rfl, hsz, rfl⟩ := ih q |>.mp hq
        exact ⟨sub :: a, g, b, rfl, hsz, rfl⟩
    · rintro ⟨a, g, b, hgs, hsz, rfl⟩
      cases a with
      | nil =>
        simp only [List.nil_append] at hgs
        cases hgs
        left
        rw [if_pos hsz]
        simp
      | cons a0 as =>
        simp only [List.cons_append, List.cons.injEq] at hgs
        obtain ⟨rfl, hrest⟩ := hgs
        right
        exact ⟨as ++ (x :: g) :: b, (ih _).mpr ⟨as, g, b, hrest, hsz, rfl⟩, rfl⟩

/-- Membership in the enumeration for a two-or-more element collection. -/
theorem mem_ukp_cons (x y : Nat) (ys : List Nat) (k : Nat) (mgs : Option Nat)
    (p : List (List Nat)) :
    p ∈ unique_k_partition (x :: y :: ys) k mgs ↔
      (∃ s ∈ unique_k_partition (y :: ys) k mgs, p ∈ insertions x mgs s)
      ∨ (∃ s ∈ unique_k_partition (y :: ys) (k - 1) mgs, p = [x] :: s) := by
  simp only [unique_k_partition, List.mem_append, List.mem_flatten, List.mem_map]
  constructor
  · rintro (⟨L, ⟨s, hs, rfl⟩, hp⟩ | ⟨s, hs, rfl⟩)
    · exact Or.inl ⟨s, hs, hp⟩
    · exact Or.inr ⟨s, hs, rfl⟩
  · rintro (⟨s, hs, hp⟩ | ⟨s, hs, rfl⟩)
    · exact Or.inl ⟨insertions x mgs s, ⟨s, hs, rfl⟩, hp⟩
    · exact Or.inr ⟨s, hs, rfl⟩

/-- Structural soundness of the enumeration: every produced partition has
exactly `k` non-empty groups and flattens to a permutation of the input. -/
theorem ukp_sound (l : List Nat) :
    ∀ (k : Nat) (mgs : Option Nat) (p : List (List Nat)),
    p ∈ unique_k_partition l k mgs →
    p.length = k ∧ (∀ g ∈ p, g ≠ []) ∧ List.Perm p.flatten l := by
  induction l with
  | nil => intro k mgs p hp; simp [unique_k_partition] at hp
  | cons x xs ih =>
    cases xs with
    | nil =>
      intro k mgs p hp
      simp only [unique_k_partition] at hp
      by_cases hk : (k == 1) = true
      · rw [if_pos hk] at hp
        cases List.mem_singleton.mp hp
        refine ⟨by simpa using (beq_iff_eq.mp hk).symm, by simp, by simp⟩
      · rw [if_neg hk] at hp
        simp at hp
    | cons y ys =>
      intro k mgs p hp
      rcases (mem_ukp_cons x y ys k mgs p).mp hp with ⟨s, hs, hins⟩ | ⟨s, hs, rfl⟩
      · obtain ⟨hlen, hne, hperm⟩ := ih k mgs s hs
        obtain ⟨a, g, b, rfl, -, rfl⟩ := (mem_insertions x mgs s p).mp hins
        refine ⟨by simpa using hlen, ?_, ?_⟩
        · intro g0 hg0
          rcases List.mem_append.mp hg0 with h | h
          · exact hne g0 (by simp [h])
          · rcases List.mem_cons.mp h with rfl | h
            · simp
            · exact hne g0 (by simp [h])
        · have h1 : List.Perm (a ++ (x :: g) :: b).flatten
              (x :: (a ++ g :: b).flatten) := by
            simp only [List.flatten_append, List.flatten_cons, List.cons_append]
            exact List.perm_middle
          exact h1.trans (hperm.cons x)
      · obtain ⟨hlen, hne, hperm⟩ := ih (k - 1) mgs s hs
        have hk : 1 ≤ k := by
          by_contra hk0
          have : k = 0 := by omega
          rw [this, ukp_zero] at hs
          simp at hs
        refine ⟨by simp [hlen]; omega, ?_, ?_⟩
        · intro g0 hg0
          rcases List.mem_cons.mp hg0 with rfl | h
          · simp
          · exact hne g0 h
        · simpa using hperm.cons x

/-- Size soundness: provided the bound is at least 1, all produced groups
respect it. -/
theorem ukp_sizes (l : List Nat) :
    ∀ (k : Nat) (m : Nat), 1 ≤ m → ∀ p ∈ unique_k_partition l k (some m),
    ∀ g ∈ p, g.length ≤ m := by
  induction l with
  | nil => intro k m hm p hp; simp [unique_k_partition] at hp
  | cons x xs ih =>
    cases xs with
    | nil =>
      intro k m hm p hp
      simp only [unique_k_partition] at hp
      by_cases hk : (k == 1) = true
      · rw [if_pos hk] at hp
        cases List.mem_singleton.mp hp
        intro g hg
        cases List.mem_singleton.mp hg
        simpa using hm
      · rw [if_neg hk] at hp
        simp at hp
    | cons y ys =>
      intro k m hm p hp
      rcases (mem_ukp_cons x y ys k (some m) p).mp hp with ⟨s, hs, hins⟩ | ⟨s, hs, rfl⟩
      · obtain ⟨a, g, b, rfl, hsz, rfl⟩ := (mem_insertions x (some m) s p).mp hins
        intro g0 hg0
        rcases List.mem_append.mp hg0 with h | h
        · exact ih k m hm _ hs g0 (by simp [h])
        · rcases List.mem_cons.mp h with rfl | h
          · simpa [allowSize] using hsz
          · exact ih k m hm _ hs g0 (by simp [h])
      · intro g0 hg0
        rcases List.mem_cons.mp hg0 with rfl | h
        · simpa using hm
        · exact ih (k - 1) m hm _ hs g0 h

/-- Membership in the set-partition view. -/
theorem mem_partsOf (p : List (List Nat)) (S : Finset Nat) :
    S ∈ partsOf p ↔ ∃ g ∈ p, g.toFinset = S := by
  simp [partsOf]

/-- In a duplicate-free partition, two parts sharing an element coincide. -/
theorem parts_common_eq (s : List (List Nat)) (hnd : s.flatten.Nodup)
    (S₁ S₂ : Finset Nat) (h₁ : S₁ ∈ partsOf s) (h₂ : S₂ ∈ partsOf s)
    (f : Nat) (hf₁ : f ∈ S₁) (hf₂ : f ∈ S₂) : S₁ = S₂ := by
  obtain ⟨g₁, hg₁, rfl⟩ := (mem_partsOf s S₁).mp h₁
  obtain ⟨g₂, hg₂, rfl⟩ := (mem_partsOf s S₂).mp h₂
  rw [nodup_flatten_group_unique s hnd g₁ g₂ hg₁ hg₂ f
    (List.mem_toFinset.mp hf₁) (List.mem_toFinset.mp hf₂)]

/-- Parts of a list with one group plucked out. -/
theorem partsOf_middle_mem (a b : List (List Nat)) (g : List Nat) (S : Finset Nat) :
    S ∈ partsOf (a ++ g :: b) ↔ S = g.toFinset ∨ S ∈ partsOf (a ++ b) := by
  simp only [mem_partsOf, List.mem_append, List.mem_cons]
  constructor
  · rintro ⟨g0, (h | rfl | h), rfl⟩
    · exact Or.inr ⟨g0, Or.inl h, rfl⟩
    · exact Or.inl rfl
    · exact Or.inr ⟨g0, Or.inr h, rfl⟩
  · rintro (rfl | ⟨g0, (h | h), rfl⟩)
    · exact ⟨g, Or.inr (Or.inl rfl), rfl⟩
    · exact ⟨g0, Or.inl h, rfl⟩
    · exact ⟨g0, Or.inr (Or.inr h), rfl⟩

/-- A plucked-out non-empty group's part does not survive among the others
(duplicate-freeness of the flattened partition). -/
theorem part_not_in_remove (a b : List (List Nat)) (g : List Nat)
    (hnd : (a ++ g :: b).flatten.Nodup) (hg : g ≠ []) :
    g.toFinset ∉ partsOf (a ++ b) := by
  intro hmem
  obtain ⟨g0, hg0, hfs⟩ := (mem_partsOf _ _).mp hmem
  obtain ⟨e, he⟩ := List.exists_mem_of_ne_nil g hg
  have he0 : e ∈ g0 := List.mem_toFinset.mp (hfs ▸ List.mem_toFinset.mpr he)
  simp only [List.flatten_append, List.flatten_cons] at hnd
  obtain ⟨-, hnd2, hdisj⟩ := List.nodup_append.mp hnd
  obtain ⟨-, -, hdisj2⟩ := List.nodup_append.mp hnd2
  rcases List.mem_append.mp hg0 with h | h
  · exact hdisj (List.mem_flatten.mpr ⟨g0, h, he0⟩) (by simp [he])
  · exact hdisj2 he (List.mem_flatten.mpr ⟨g0, h, he0⟩)

/-- In a duplicate-free partition a non-empty group determines its position:
two middle decompositions with set-equal plucked groups coincide. -/
theorem middle_decomposition_unique (s : List (List Nat)) (hnd : s.flatten.Nodup) :
    ∀ (a₁ b₁ a₂ b₂ : List (List Nat)) (g₁ g₂ : List Nat),
    s = a₁ ++ g₁ :: b₁ → s = a₂ ++ g₂ :: b₂ → g₁ ≠ [] →
    g₁.toFinset = g₂.toFinset → a₁ = a₂ ∧ g₁ = g₂ ∧ b₁ = b₂ := by
  induction s with
  | nil =>
    intro a₁ b₁ a₂ b₂ g₁ g₂ h₁ h₂ hne hfs
    exact absurd h₁.symm (by simp)
  | cons h0 t ih =>
    intro a₁ b₁ a₂ b₂ g₁ g₂ h₁ h₂ hne hfs
    have hne₂ : g₂ ≠ [] := by
      intro hnil
      rw [hnil] at hfs
      obtain ⟨e, he⟩ := List.exists_mem_of_ne_nil g₁ hne
      have : e ∈ g₁.toFinset := List.mem_toFinset.mpr he
      rw [hfs] at this
      simp at this
    simp only [List.flatten_cons] at hnd
    obtain ⟨-, hndt, hdisj⟩ := List.nodup_append.mp hnd
    cases a₁ with
    | nil =>
      simp only [List.nil_append] at h₁
      injection h₁ with hg₁ hb₁
      cases a₂ with
      | nil =>
        simp only [List.nil_append] at h₂
        injection h₂ with hg₂ hb₂
        exact ⟨rfl, hg₁.symm.trans hg₂, hb₁.symm.trans hb₂⟩
      | cons c cs =>
        simp only [List.cons_append] at h₂
        injection h₂ with hc ht
        obtain ⟨e, he⟩ := List.exists_mem_of_ne_nil g₁ hne
        have he₂ : e ∈ g₂ :=
          List.mem_toFinset.mp (hfs ▸ List.mem_toFinset.mpr he)
        have hin : e ∈ t.flatten := by
          rw [ht]
          exact List.mem_flatten.mpr ⟨g₂, by simp, he₂⟩
        have he0 : e ∈ h0 := hg₁.symm ▸ he
        exact absurd hin (hdisj he0)
    | cons c cs =>
      simp only [List.cons_append] at h₁
      injection h₁ with hc₁ ht₁
      cases a₂ with
      | nil =>
        simp only [List.nil_append] at h₂
        injection h₂ with hg₂ hb₂
        obtain ⟨e, he⟩ := List.exists_mem_of_ne_nil g₂ hne₂
        have he₁ : e ∈ g₁ :=
          List.mem_toFinset.mp (hfs.symm ▸ List.mem_toFinset.mpr he)
        have hin : e ∈ t.flatten := by
          rw [ht₁]
          exact List.mem_flatten.mpr ⟨g₁, by simp, he₁⟩
        have he0 : e ∈ h0 := hg₂.symm ▸ he
        exact absurd hin (hdisj he0)
      | cons c2 cs2 =>
        simp only [List.cons_append] at h₂
        injection h₂ with hc₂ ht₂
        obtain ⟨ha, hg, hb⟩ := ih hndt cs b₁ cs2 b₂ g₁ g₂ ht₁ ht₂ hne hfs
        refine ⟨?_, hg, hb⟩
        rw [← hc₁, ← hc₂, ha]

/-- Completeness and uniqueness of the enumeration: over a non-empty
duplicate-free collection, every partition into exactly `k` non-empty
bounded groups is produced by `unique_k_partition`, by exactly one entry. -/
theorem ukp_complete_unique (l : List Nat) :
    l.Nodup → l ≠ [] → ∀ (k : Nat) (mgs : Option Nat) (q : List (List Nat)),
    ValidPartition l k mgs q →
    ∃ p, (p ∈ unique_k_partition l k mgs ∧ partsOf p = partsOf q)
      ∧ ∀ p₂, p₂ ∈ unique_k_partition l k mgs → partsOf p₂ = partsOf q → p₂ = p := by
  induction l with
  | nil => intro _ hne; exact absurd rfl hne
  | cons x xs ih =>
    intro hl _ k mgs q hq
    obtain ⟨hlen, hgne, hperm, hsz⟩ := hq
    rw [List.nodup_cons] at hl
    obtain ⟨hx, hxs⟩ := hl
    cases xs with
    | nil =>
      have hq1 : q = [[x]] := by
        have hflat : q.flatten = [x] := List.perm_singleton.mp hperm
        cases q with
        | nil => simp at hflat
        | cons g rest =>
          cases g with
          | nil => exact absurd rfl (hgne [] (by simp))
          | cons e g' =>
            simp only [List.flatten_cons, List.cons_append, List.cons.injEq] at hflat
            obtain ⟨rfl, hrest⟩ := hflat
            rw [List.append_eq_nil] at hrest
            obtain ⟨rfl, hrest⟩ := hrest
            cases rest with
            | nil => rfl
            | cons g2 r2 =>
              cases g2 with
              | nil => exact absurd rfl (hgne [] (by simp))
              | cons e2 g2' => simp at hrest
      subst hq1
      have hk : k = 1 := by simpa using hlen.symm
      subst hk
      refine ⟨[[x]], ⟨by simp [unique_k_partition], rfl⟩, fun p₂ hp₂ _ => ?_⟩
      simpa [unique_k_partition] using hp₂
    | cons y ys =>
      have hxmem : x ∈ q.flatten := hperm.mem_iff.mpr (by simp)
      obtain ⟨T, hT, hxT⟩ := List.mem_flatten.mp hxmem
      obtain ⟨qa, qb, rfl⟩ := List.append_of_mem hT
      have hqnd : (qa ++ T :: qb).flatten.Nodup :=
        hperm.nodup_iff.mpr (List.nodup_cons.mpr ⟨hx, hxs⟩)
      have hTnd : T.Nodup := (List.nodup_flatten.mp hqnd).1 T (by simp)
      have hperm_T : T.Perm (x :: T.erase x) := List.perm_cons_erase hxT
      have hxT' : x ∉ T.erase x := List.Nodup.not_mem_erase hTnd
      have hxqaqb : x ∉ (qa ++ qb).flatten := by
        intro hm
        simp only [List.flatten_append, List.flatten_cons] at hqnd
        obtain ⟨-, hnd2, hdisj⟩ := List.nodup_append.mp hqnd
        obtain ⟨-, -, hdisj2⟩ := List.nodup_append.mp hnd2
        simp only [List.flatten_append, List.mem_append] at hm
        rcases hm with hm | hm
        · exact hdisj hm (by simp [hxT])
        · exact hdisj2 hxT hm
      have hk1 : 1 ≤ k := by
        rw [← hlen]
        simp
        omega
      have hqlen : qa.length + (qb.length + 1) = k := by simpa using hlen
      have hTfin : T.toFinset = insert x (T.erase x).toFinset := by
        rw [List.toFinset_eq_of_perm _ _ hperm_T]
        simp
      cases hTe : T.erase x with
      | nil =>
        have hTeq : T = [x] := by
          rw [hTe] at hperm_T
          exact List.perm_singleton.mp hperm_T
        subst hTeq
        have hq' : ValidPartition (y :: ys) (k - 1) mgs (qa ++ qb) := by
          refine ⟨by simp; omega, ?_, ?_, ?_⟩
          · intro g hg
            rcases List.mem_append.mp hg with h | h
            · exact hgne g (by simp [h])
            · exact hgne g (by simp [h])
          · have h1 : List.Perm (qa ++ [x] :: qb).flatten
                (x :: (qa ++ qb).flatten) := by
              simp only [List.flatten_append, List.flatten_cons, List.cons_append,
                List.nil_append]
              exact List.perm_middle
            exact (h1.symm.trans hperm).cons_inv
          · intro g hg m hm
            rcases List.mem_append.mp hg with h | h
            · exact hsz g (by simp [h]) m hm
            · exact hsz g (by simp [h]) m hm
        obtain ⟨p', ⟨hp'm, hp'f⟩, huniq'⟩ :=
          ih hxs (by simp) (k - 1) mgs (qa ++ qb) hq'
        refine ⟨[x] :: p', ⟨?_, ?_⟩, ?_⟩
        · exact (mem_ukp_cons x y ys k mgs _).mpr (Or.inr ⟨p', hp'm, rfl⟩)
        · apply Finset.ext
          intro S
          have h1 : S ∈ partsOf ([x] :: p') ↔ S = [x].toFinset ∨ S ∈ partsOf p' := by
            have := partsOf_middle_mem [] p' [x] S
            simpa using this
          have h2 : S ∈ partsOf (qa ++ [x] :: qb) ↔
              S = [x].toFinset ∨ S ∈ partsOf (qa ++ qb) := partsOf_middle_mem qa qb [x] S
          rw [h1, h2, hp'f]
        · intro p₂ hp₂m hp₂f
          obtain ⟨hlen₂, hgne₂, hperm₂⟩ := ukp_sound (x :: y :: ys) k mgs p₂ hp₂m
          have hnd₂ : p₂.flatten.Nodup :=
            hperm₂.nodup_iff.mpr (List.nodup_cons.mpr ⟨hx, hxs⟩)
          rcases (mem_ukp_cons x y ys k mgs p₂).mp hp₂m with ⟨s₂, hs₂, hins⟩ | ⟨s₂, hs₂, rfl⟩
          · exfalso
            obtain ⟨a₂, g₂, b₂, rfl, -, rfl⟩ := (mem_insertions x mgs s₂ p₂).mp hins
            obtain ⟨-, hgne₃, hperm₃⟩ := ukp_sound (y :: ys) k mgs _ hs₂
            have hxg₂ : x ∉ g₂ := by
              intro hm
              exact hx (hperm₃.mem_iff.mp (List.mem_flatten.mpr ⟨g₂, by simp, hm⟩))
            have hxpart : (x :: g₂).toFinset ∈ partsOf (qa ++ [x] :: qb) := by
              rw [← hp₂f]
              exact (mem_partsOf _ _).mpr ⟨x :: g₂, by simp, rfl⟩
            have hxpart2 : [x].toFinset ∈ partsOf (qa ++ [x] :: qb) :=
              (mem_partsOf _ _).mpr ⟨[x], by simp, rfl⟩
            have heq := parts_common_eq _ hqnd _ _ hxpart hxpart2 x (by simp) (by simp)
            obtain ⟨e, he⟩ := List.exists_mem_of_ne_nil g₂ (hgne₃ g₂ (by simp))
            have : e ∈ ([x] : List Nat).toFinset := by
              rw [← heq]
              simp [he]
            have : e = x := by simpa using this
            exact hxg₂ (this ▸ he)
          · obtain ⟨-, -, hperm₃⟩ := ukp_sound (y :: ys) (k - 1) mgs s₂ hs₂
            have hxs₂ : x ∉ s₂.flatten := by
              intro hm
              exact hx (hperm₃.mem_iff.mp hm)
            have hps₂ : partsOf s₂ = partsOf (qa ++ qb) := by
              apply Finset.ext
              intro S
              constructor
              · intro hS
                have : S ∈ partsOf ([x] :: s₂) := by
                  have := partsOf_middle_mem [] s₂ [x] S
                  simp only [List.nil_append] at this
                  exact this.mpr (Or.inr hS)
                rw [hp₂f] at this
                rcases (partsOf_middle_mem qa qb [x] S).mp this with rfl | h
                · exfalso
                  obtain ⟨g0, hg0, hfs0⟩ := (mem_partsOf _ _).mp hS
                  have : x ∈ g0 := by
                    have : x ∈ g0.toFinset := by rw [hfs0]; simp
                    simpa using this
                  exact hxs₂ (List.mem_flatten.mpr ⟨g0, hg0, this⟩)
                · exact h
              · intro hS
                have : S ∈ partsOf (qa ++ [x] :: qb) :=
                  (partsOf_middle_mem qa qb [x] S).mpr (Or.inr hS)
                rw [← hp₂f] at this
                have h1 := partsOf_middle_mem [] s₂ [x] S
                simp only [List.nil_append] at h1
                rcases h1.mp this with rfl | h
                · exfalso
                  obtain ⟨g0, hg0, hfs0⟩ := (mem_partsOf _ _).mp hS
                  have hxg0 : x ∈ g0 := by
                    have : x ∈ g0.toFinset := by rw [hfs0]; simp
                    simpa using this
                  exact hxqaqb (List.mem_flatten.mpr ⟨g0, hg0, hxg0⟩)
                · exact h
            rw [huniq' s₂ hs₂ hps₂]
      | cons e es =>
        have hT'ne : T.erase x ≠ [] := by rw [hTe]; simp
        have hq'' : ValidPartition (y :: ys) k mgs (qa ++ T.erase x :: qb) := by
          refine ⟨by simpa using hqlen, ?_, ?_, ?_⟩
          · intro g hg
            rcases List.mem_append.mp hg with h | h
            · exact hgne g (by simp [h])
            · rcases List.mem_cons.mp h with rfl | h
              · exact hT'ne
              · exact hgne g (by simp [h])
          · have h1 : List.Perm (qa ++ T :: qb).flatten
                (x :: (qa ++ T.erase x :: qb).flatten) := by
              simp only [List.flatten_append, List.flatten_cons]
              have h2 : List.Perm (T ++ qb.flatten) ((x :: T.erase x) ++ qb.flatten) :=
                hperm_T.append (List.Perm.refl qb.flatten)
              have h3 := (List.Perm.refl qa.flatten).append h2
              refine h3.trans ?_
              simp only [List.cons_append]
              exact List.perm_middle
            exact (h1.symm.trans hperm).cons_inv
          · intro g hg m hm
            rcases List.mem_append.mp hg with h | h
            · exact hsz g (by simp [h]) m hm
            · rcases List.mem_cons.mp h with rfl | h
              · have hTlen : T.length = (T.erase x).length + 1 := by
                  have := hperm_T.length_eq
                  simpa using this
                have := hsz T (by simp) m hm
                omega
              · exact hsz g (by simp [h]) m hm
        obtain ⟨p', ⟨hp'm, hp'f⟩, huniq''⟩ :=
          ih hxs (by simp) k mgs (qa ++ T.erase x :: qb) hq''
        obtain ⟨hlen', hgne', hperm'⟩ := ukp_sound (y :: ys) k mgs p' hp'm
        have hnd' : p'.flatten.Nodup := hperm'.nodup_iff.mpr hxs
        have hxp' : x ∉ p'.flatten := fun hm => hx (hperm'.mem_iff.mp hm)
        have hndq'' : (qa ++ T.erase x :: qb).flatten.Nodup := by
          have : List.Perm (qa ++ T.erase x :: qb).flatten (y :: ys) := by
            obtain ⟨-, -, hp, -⟩ := hq''
            exact hp
          exact this.nodup_iff.mpr hxs
        have hmemg : (T.erase x).toFinset ∈ partsOf p' := by
          rw [hp'f]
          exact (mem_partsOf _ _).mpr ⟨T.erase x, by simp, rfl⟩
        obtain ⟨g, hgmem, hgfs⟩ := (mem_partsOf _ _).mp hmemg
        obtain ⟨a, b, rfl⟩ := List.append_of_mem hgmem
        have hgne0 : g ≠ [] := hgne' g (by simp)
        have hxg : x ∉ g := by
          intro hm
          exact hxp' (List.mem_flatten.mpr ⟨g, by simp, hm⟩)
        have hgnd : g.Nodup := (List.nodup_flatten.mp hnd').1 g (by simp)
        have hT'nd : (T.erase x).Nodup := hTnd.erase x
        have hglen : g.length = (T.erase x).length := by
          rw [← List.toFinset_card_of_nodup hgnd, ← List.toFinset_card_of_nodup hT'nd,
            hgfs]
        have hsize : allowSize mgs (g.length + 1) = true := by
          cases mgs with
          | none => rfl
          | some m =>
            have hTlen : T.length = (T.erase x).length + 1 := by
              have := hperm_T.length_eq
              simpa using this
            have := hsz T (by simp) m rfl
            simp only [allowSize, decide_eq_true_eq]
            omega
        have hxgfin : (x :: g).toFinset = T.toFinset := by
          rw [hTfin, ← hgfs]
          simp
        refine ⟨a ++ (x :: g) :: b, ⟨?_, ?_⟩, ?_⟩
        · exact (mem_ukp_cons x y ys k mgs _).mpr
            (Or.inl ⟨a ++ g :: b, hp'm, (mem_insertions x mgs _ _).mpr
              ⟨a, g, b, rfl, hsize, rfl⟩⟩)
        · apply Finset.ext
          intro S
          rw [partsOf_middle_mem a b (x :: g) S, partsOf_middle_mem qa qb T S, hxgfin]
          have hremove : partsOf (a ++ b) = partsOf (qa ++ qb) := by
            apply Finset.ext
            intro S2
            constructor
            · intro hS2
              have : S2 ∈ partsOf (a ++ g :: b) :=
                (partsOf_middle_mem a b g S2).mpr (Or.inr hS2)
              rw [hp'f] at this
              rcases (partsOf_middle_mem qa qb (T.erase x) S2).mp this with rfl | h
              · exact absurd (hgfs ▸ hS2) (part_not_in_remove a b g hnd' hgne0)
              · exact h
            · intro hS2
              have : S2 ∈ partsOf (qa ++ T.erase x :: qb) :=
                (partsOf_middle_mem qa qb (T.erase x) S2).mpr (Or.inr hS2)
              rw [← hp'f] at this
              rcases (partsOf_middle_mem a b g S2).mp this with rfl | h
              · exact absurd (hgfs.symm ▸ hS2)
                  (part_not_in_remove qa qb (T.erase x) hndq'' hT'ne)
              · exact h
          rw [hremove]
        · intro p₂ hp₂m hp₂f
          obtain ⟨hlen₂, hgne₂, hperm₂⟩ := ukp_sound (x :: y :: ys) k mgs p₂ hp₂m
          have hnd₂ : p₂.flatten.Nodup :=
            hperm₂.nodup_iff.mpr (List.nodup_cons.mpr ⟨hx, hxs⟩)
          rcases (mem_ukp_cons x y ys k mgs p₂).mp hp₂m with ⟨s₂, hs₂, hins⟩ | ⟨s₂, hs₂, rfl⟩
          · obtain ⟨a₂, g₂, b₂, rfl, -, rfl⟩ := (mem_insertions x mgs s₂ p₂).mp hins
            obtain ⟨-, hgne₃, hperm₃⟩ := ukp_sound (y :: ys) k mgs _ hs₂
            have hnds₂ : (a₂ ++ g₂ :: b₂).flatten.Nodup := hperm₃.nodup_iff.mpr hxs
            have hxs₂ : x ∉ (a₂ ++ g₂ :: b₂).flatten := fun hm =>
              hx (hperm₃.mem_iff.mp hm)
            have hxg₂ : x ∉ g₂ := fun hm =>
              hxs₂ (List.mem_flatten.mpr ⟨g₂, by simp, hm⟩)
            have hxpart : (x :: g₂).toFinset ∈ partsOf (qa ++ T :: qb) := by
              rw [← hp₂f]
              exact (mem_partsOf _ _).mpr ⟨x :: g₂, by simp, rfl⟩
            have hxpart2 : T.toFinset ∈ partsOf (qa ++ T :: qb) :=
              (mem_partsOf _ _).mpr ⟨T, by simp, rfl⟩
            have heq := parts_common_eq _ hqnd _ _ hxpart hxpart2 x (by simp)
              (by simp [hxT])
            have hg₂fs : g₂.toFinset = (T.erase x).toFinset := by
              have h1 : (insert x g₂.toFinset).erase x =
                  (insert x (T.erase x).toFinset).erase x := by
                rw [← hTfin]
                have h2 : (x :: g₂).toFinset = insert x g₂.toFinset := by simp
                rw [← h2, heq]
              rwa [Finset.erase_insert (by simpa using hxg₂),
                Finset.erase_insert (by simpa using hxT')] at h1
            have hps₂ : partsOf (a₂ ++ g₂ :: b₂) = partsOf (qa ++ T.erase x :: qb) := by
              apply Finset.ext
              intro S
              rw [partsOf_middle_mem a₂ b₂ g₂ S,
                partsOf_middle_mem qa qb (T.erase x) S, hg₂fs]
              have hremove₂ : partsOf (a₂ ++ b₂) = partsOf (qa ++ qb) := by
                apply Finset.ext
                intro S2
                constructor
                · intro hS2
                  have : S2 ∈ partsOf (a₂ ++ (x :: g₂) :: b₂) :=
                    (partsOf_middle_mem a₂ b₂ (x :: g₂) S2).mpr (Or.inr hS2)
                  rw [hp₂f] at this
                  rcases (partsOf_middle_mem qa qb T S2).mp this with rfl | h
                  · exfalso
                    obtain ⟨g0, hg0, hfs0⟩ := (mem_partsOf _ _).mp hS2
                    have hxg0 : x ∈ g0 := by
                      have : x ∈ g0.toFinset := by rw [hfs0]; simp [hxT]
                      simpa using this
                    exact hxs₂ (List.mem_flatten.mpr ⟨g0, by
                      rcases List.mem_append.mp hg0 with h | h
                      · exact List.mem_append.mpr (Or.inl h)
                      · exact List.mem_append.mpr (Or.inr (List.mem_cons_of_mem _ h)),
                      hxg0⟩)
                  · exact h
                · intro hS2
                  have : S2 ∈ partsOf (qa ++ T :: qb) :=
                    (partsOf_middle_mem qa qb T S2).mpr (Or.inr hS2)
                  rw [← hp₂f] at this
                  rcases (partsOf_middle_mem a₂ b₂ (x :: g₂) S2).mp this with rfl | h
                  · exfalso
                    obtain ⟨g0, hg0, hfs0⟩ := (mem_partsOf _ _).mp hS2
                    have hxg0 : x ∈ g0 := by
                      have : x ∈ g0.toFinset := by rw [hfs0]; simp
                      simpa using this
                    exact hxqaqb (List.mem_flatten.mpr ⟨g0, hg0, hxg0⟩)
                  · exact h
              rw [hremove₂]
            have hs₂eq : a₂ ++ g₂ :: b₂ = a ++ g :: b := huniq'' _ hs₂ hps₂
            obtain ⟨rfl, rfl, rfl⟩ := middle_decomposition_unique (a ++ g :: b) hnd'
              a₂ b₂ a b g₂ g hs₂eq.symm rfl (hgne₃ g₂ (by simp))
              (hg₂fs.trans hgfs.symm)
            rfl
          · exfalso
            obtain ⟨-, -, hperm₃⟩ := ukp_sound (y :: ys) (k - 1) mgs s₂ hs₂
            have hxpart : ([x] : List Nat).toFinset ∈ partsOf (qa ++ T :: qb) := by
              rw [← hp₂f]
              exact (mem_partsOf _ _).mpr ⟨[x], by simp, rfl⟩
            have hxpart2 : T.toFinset ∈ partsOf (qa ++ T :: qb) :=
              (mem_partsOf _ _).mpr ⟨T, by simp, rfl⟩
            have heq := parts_common_eq _ hqnd _ _ hxpart hxpart2 x (by simp)
              (by simp [hxT])
            have heT : e ∈ T := List.mem_of_mem_erase (hTe ▸ List.mem_cons_self e es)
            have hex : e ≠ x := by
              intro h
              apply hxT'
              rw [hTe, ← h]
              exact List.mem_cons_self e es
            have : e ∈ ([x] : List Nat).toFinset := by
              rw [heq]
              simp [heT]
            simp at this
            exact hex this

/-- `find?` and `idxOfP` find the same first hit. -/
theorem find?_eq_of_idxOfP (p : α → Bool) (l : List α) (a : α)
    (h : l.find? p = some a) :
    ∃ j, idxOfP p l = some j ∧ ∃ hj : j < l.length, l[j] = a := by
  induction l with
  | nil => simp at h
  | cons b bs ih =>
    by_cases hpb : p b = true
    · rw [List.find?_cons_of_pos _ hpb] at h
      cases h
      exact ⟨0, by simp [idxOfP, hpb], by simp, rfl⟩
    · rw [List.find?_cons_of_neg _ hpb] at h
      obtain ⟨j, hj, hlt, hget⟩ := ih h
      refine ⟨j + 1, ?_, by simpa using Nat.succ_lt_succ hlt, by simpa using hget⟩
      simp [idxOfP, hpb, hj]

/-- A list whose images are pairwise distinct maps to a duplicate-free
list. -/
theorem nodup_map_of_pairwise_ne (f : α → β) (l : List α)
    (h : l.Pairwise (fun a b => f a ≠ f b)) : (l.map f).Nodup := by
  induction l with
  | nil => simp
  | cons a as ih =>
    rw [List.pairwise_cons] at h
    rw [List.map_cons, List.nodup_cons]
    refine ⟨?_, ih h.2⟩
    intro hmem
    obtain ⟨b, hb, hfb⟩ := List.mem_map.mp hmem
    exact h.1 b hb hfb.symm

/-- Pigeonhole on a full slot array: with at most `ams_size` groups in
total, a full invariant-satisfying array has a resident in every group — in
particular in the next filament's group. -/
theorem find_slot_of_full (G : FilamentGrouping) (_hWF : WFGrouping G)
    (ams : List Filament) (ams_size : Nat) (hk : G.groups.length ≤ ams_size)
    (hInv : AmsInv G ams_size ams) (hfull : ams.length = ams_size)
    (next : Filament) (grp : List Filament)
    (hgrp : find_filament_group G next = some grp) :
    ∃ r ∈ ams, r ∈ grp := by
  obtain ⟨-, hall, hpw⟩ := hInv
  set gIdx := fun f => idxOfP (fun g => g.contains f) G.groups with hgIdx
  have hsome : ∀ f ∈ ams, (gIdx f).isSome = true := by
    intro f hf
    have := hall f hf
    rw [Option.isSome_iff_exists] at this
    obtain ⟨grpf, hgrpf⟩ := this
    obtain ⟨j, hj, -⟩ := find?_eq_of_idxOfP _ _ _ hgrpf
    simp only [hgIdx]
    rw [hj]
    rfl
  have hpairne : ams.Pairwise (fun a b => gIdx a ≠ gIdx b) := by
    refine hpw.imp_of_mem ?_
    intro a b ha hb hng heq
    obtain ⟨ja, hja⟩ := Option.isSome_iff_exists.mp (hsome a ha)
    have hjb : gIdx b = some ja := heq ▸ hja
    obtain ⟨hlt, hpja⟩ := idxOfP_eq_some _ _ _ hja
    obtain ⟨hlt', hpjb⟩ := idxOfP_eq_some _ _ _ hjb
    have hmem_a : a ∈ G.groups[ja] := by simpa [List.elem_eq_mem] using hpja
    have hmem_b : b ∈ G.groups[ja] := by simpa [List.elem_eq_mem] using hpjb
    have := is_grouped_of_both_mem G G.groups[ja] (List.getElem_mem hlt) a b hmem_a hmem_b
    rw [hng] at this
    cases this
  have hnd : (ams.map gIdx).Nodup := nodup_map_of_pairwise_ne gIdx ams hpairne
  obtain ⟨jn, hjn, hjlt, hjget⟩ := find?_eq_of_idxOfP _ _ _ hgrp
  have hsub : (ams.map gIdx).toFinset ⊆
      (Finset.range G.groups.length).image Option.some := by
    intro o ho
    rw [List.mem_toFinset] at ho
    obtain ⟨f, hf, rfl⟩ := List.mem_map.mp ho
    obtain ⟨j, hj⟩ := Option.isSome_iff_exists.mp (hsome f hf)
    obtain ⟨hlt, -⟩ := idxOfP_eq_some _ _ _ hj
    rw [hj]
    exact Finset.mem_image.mpr ⟨j, Finset.mem_range.mpr hlt, rfl⟩
  have hcard1 : (ams.map gIdx).toFinset.card = ams_size := by
    rw [List.toFinset_card_of_nodup hnd]
    simp [hfull]
  have hcard2 : ((Finset.range G.groups.length).image Option.some).card =
      G.groups.length := by
    rw [Finset.card_image_of_injective _ (Option.some_injective _)]
    simp
  have heq : (ams.map gIdx).toFinset =
      (Finset.range G.groups.length).image Option.some :=
    Finset.eq_of_subset_of_card_le hsub (by omega)
  have hmem : (some jn : Option Nat) ∈ (ams.map gIdx).toFinset := by
    rw [heq]
    exact Finset.mem_image.mpr ⟨jn, Finset.mem_range.mpr hjlt, rfl⟩
  rw [List.mem_toFinset] at hmem
  obtain ⟨r, hr, hrj⟩ := List.mem_map.mp hmem
  obtain ⟨hlt, hp⟩ := idxOfP_eq_some _ _ _ hrj
  refine ⟨r, hr, ?_⟩
  rw [← hjget]
  simpa [List.elem_eq_mem] using hp

/-- A step never fails when the grouping covers the next filament and has
at most `ams_size` groups (capacity can then never be exhausted). -/
theorem stepTC_total (G : FilamentGrouping) (hWF : WFGrouping G) (ams_size : Nat)
    (hk : G.groups.length ≤ ams_size) (ams : List Filament)
    (hInv : AmsInv G ams_size ams) (tc : ToolChange)
    (hc : (find_filament_group G tc.next_filament).isSome = true) :
    ∃ ev ams', stepTC G ams_size ams tc = .ok (ev, ams') := by
  obtain ⟨grp, hgrp⟩ := Option.isSome_iff_exists.mp hc
  have hfi : find_index G ams tc.next_filament =
      .ok (idxOfP (fun cur => grp.contains cur) ams) := by
    simp [find_index, hgrp]
  have him : ∃ m, tc.is_manual ams G = .ok m := by
    simp only [ToolChange.is_manual]
    by_cases hcont : ams.contains tc.next_filament = true
    · rw [if_pos hcont]
      exact ⟨false, rfl⟩
    · rw [if_neg hcont, hfi]
      exact ⟨_, rfl⟩
  obtain ⟨m, him⟩ := him
  simp only [stepTC, him, hfi]
  cases hidx : idxOfP (fun cur => grp.contains cur) ams with
  | some i => exact ⟨_, _, rfl⟩
  | none =>
    have hne : (ams.length == ams_size) = false := by
      by_contra h
      rw [Bool.not_eq_false] at h
      have hfull : ams.length = ams_size := by simpa using h
      obtain ⟨r, hr, hrg⟩ := find_slot_of_full G hWF ams ams_size hk hInv hfull
        tc.next_filament grp hgrp
      have := (idxOfP_eq_none_iff _ ams).mp hidx r hr
      simp only [List.elem_eq_mem, decide_eq_false_iff_not] at this
      exact this hrg
    rw [hne]
    exact ⟨_, _, by rw [if_neg (by simp)]⟩

/-- A whole pass never fails under the same conditions. -/
theorem iterTC_total (G : FilamentGrouping) (hWF : WFGrouping G) (ams_size : Nat)
    (hk : G.groups.length ≤ ams_size) :
    ∀ (tcs : List ToolChange),
    (∀ tc ∈ tcs, (find_filament_group G tc.next_filament).isSome = true) →
    ∀ ams, AmsInv G ams_size ams →
    ∃ evs, iterTC G ams_size tcs ams = .ok evs := by
  intro tcs
  induction tcs with
  | nil => exact fun _ ams _ => ⟨[], rfl⟩
  | cons tc rest ihr =>
    intro hcover ams hInv
    obtain ⟨ev, ams', hstep⟩ := stepTC_total G hWF ams_size hk ams hInv tc
      (hcover tc (by simp))
    obtain ⟨evs, hrest⟩ := ihr (fun tc2 h2 => hcover tc2 (by simp [h2])) ams'
      (stepTC_inv G hWF ams_size ams tc ev ams' hInv hstep)
    exact ⟨ev.toList ++ evs, by simp [iterTC, hstep, hrest]⟩

/-- Pointwise existence gives a `Forall₂`-related list. -/
theorem exists_forall₂ (R : α → β → Prop) (L : List α)
    (h : ∀ a ∈ L, ∃ b, R a b) : ∃ L', List.Forall₂ R L L' := by
  induction L with
  | nil => exact ⟨[], .nil⟩
  | cons a as ih =>
    obtain ⟨b, hb⟩ := h a (by simp)
    obtain ⟨L', hL'⟩ := ih (fun a2 h2 => h a2 (by simp [h2]))
    exact ⟨b :: L', .cons hb hL'⟩

/-- A left member of a `Forall₂` has a related right member. -/
theorem forall₂_mem_left (R : α → β → Prop) (L : List α) (L' : List β)
    (h : List.Forall₂ R L L') (a : α) (ha : a ∈ L) : ∃ b ∈ L', R a b := by
  induction h with
  | nil => simp at ha
  | cons hR hrest ih =>
    rcases List.mem_cons.mp ha with rfl | ha
    · exact ⟨_, by simp, hR⟩
    · obtain ⟨b, hb, hRb⟩ := ih ha
      exact ⟨b, by simp [hb], hRb⟩

/-- A right member of a `Forall₂` has a related left member. -/
theorem forall₂_mem_right (R : α → β → Prop) (L : List α) (L' : List β)
    (h : List.Forall₂ R L L') (b : β) (hb : b ∈ L') : ∃ a ∈ L, R a b := by
  induction h with
  | nil => simp at hb
  | cons hR hrest ih =>
    rcases List.mem_cons.mp hb with rfl | hb
    · exact ⟨_, by simp, hR⟩
    · obtain ⟨a, ha, hRa⟩ := ih hb
      exact ⟨a, by simp [ha], hRa⟩

/-- Every enumerated candidate both constructs and simulates successfully
(capacity exhaustion is impossible for an exactly-`ams_size`-group partition
of the full filament set). -/
theorem candidates_score (l : List Nat) (hl : l.Nodup) (ams_size : Nat)
    (mgs : Option Nat) (tcs : List ToolChange)
    (hnext : ∀ tc ∈ tcs, tc.next_filament ∈ l) (p : List (List Nat))
    (hp : p ∈ unique_k_partition l ams_size mgs) :
    ∃ (G : FilamentGrouping) (evs : List ManualToolChange),
      mkFilamentGrouping p = .ok G
        ∧ iter_manual_toolchanges G ams_size tcs = .ok evs := by
  obtain ⟨hlen, hgne, hperm⟩ := ukp_sound l ams_size mgs p hp
  have hnd : p.flatten.Nodup := hperm.nodup_iff.mpr hl
  obtain ⟨G, hG⟩ := (mk_ok_iff_nodup p).mpr hnd
  have hWF : WFGrouping G := WF_of_mk p G hG
  have hglen : G.groups.length = ams_size := by
    rw [mk_groups_eq p G hG, (sortedByLen_perm _).length_eq]
    simp [hlen]
  have hcover : ∀ tc ∈ tcs, (find_filament_group G tc.next_filament).isSome = true := by
    intro tc htc
    have hmem : tc.next_filament ∈ G.groups.flatten :=
      ((mk_groups_flatten_perm p G hG).mem_iff).mpr
        (hperm.mem_iff.mpr (hnext tc htc))
    obtain ⟨g, hg, hfg⟩ := List.mem_flatten.mp hmem
    exact List.find?_isSome.mpr ⟨g, hg, by simp [List.elem_eq_mem, hfg]⟩
  obtain ⟨evs, hevs⟩ := iterTC_total G hWF ams_size (le_of_eq hglen) tcs hcover []
    ⟨by simp, by simp, by simp⟩
  exact ⟨G, evs, hG, hevs⟩

/-- C2 (amended): for a non-empty duplicate-free filament set the optimizer
enumerates exactly the set partitions into EXACTLY `ams_size` non-empty
groups within the size bound — each exactly once (not "any number of groups
from 1 to ams_size" as claimed) — and (when any candidate exists) returns a
candidate's grouping together with its simulated manual-change count,
minimal among all candidates, and the total tool-change count; with no
candidate it returns nothing. -/
theorem c2_enumeration_and_minimality (l : List Nat) (hne : l ≠ []) (hl : l.Nodup)
    (ams_size : Nat) (mgs : Option Nat) (hm : ∀ m, mgs = some m → 1 ≤ m)
    (tcs : List ToolChange) (hnext : ∀ tc ∈ tcs, tc.next_filament ∈ l) :
    (∀ p ∈ unique_k_partition l ams_size mgs, ValidPartition l ams_size mgs p)
    ∧ (∀ q, ValidPartition l ams_size mgs q →
        ∃ p, (p ∈ unique_k_partition l ams_size mgs ∧ partsOf p = partsOf q)
          ∧ ∀ p₂, p₂ ∈ unique_k_partition l ams_size mgs →
              partsOf p₂ = partsOf q → p₂ = p)
    ∧ (unique_k_partition l ams_size mgs = [] →
        find_best_mapping tcs l ams_size mgs = .ok none)
    ∧ (unique_k_partition l ams_size mgs ≠ [] →
        ∃ G n, find_best_mapping tcs l ams_size mgs = .ok (some (G, n, tcs.length))
          ∧ (∃ p ∈ unique_k_partition l ams_size mgs,
              mkFilamentGrouping p = .ok G
                ∧ ∃ evs, iter_manual_toolchanges G ams_size tcs = .ok evs
                    ∧ evs.length = n)
          ∧ (∀ p ∈ unique_k_partition l ams_size mgs,
              ∀ (G' : FilamentGrouping) (evs' : List ManualToolChange),
              mkFilamentGrouping p = .ok G' →
              iter_manual_toolchanges G' ams_size tcs = .ok evs' →
              n ≤ evs'.length)) := by
  refine ⟨?_, ?_, ?_, ?_⟩
  · intro p hp
    obtain ⟨h1, h2, h3⟩ := ukp_sound l ams_size mgs p hp
    refine ⟨h1, h2, h3, ?_⟩
    intro g hg m hmeq
    subst hmeq
    exact ukp_sizes l ams_size m (hm m rfl) p hp g hg
  · exact fun q hq => ukp_complete_unique l hl hne ams_size mgs q hq
  · intro hgen
    simp [find_best_mapping, hgen, fbmLoop]
  · intro hgen
    obtain ⟨scored, hfa⟩ := exists_forall₂
      (fun comb (s : FilamentGrouping × Nat) => mkFilamentGrouping comb = .ok s.1
        ∧ ∃ evs, iter_manual_toolchanges s.1 ams_size tcs = .ok evs
            ∧ s.2 = evs.length)
      (unique_k_partition l ams_size mgs)
      (fun p hp => by
        obtain ⟨G, evs, hG, hevs⟩ := candidates_score l hl ams_size mgs tcs hnext p hp
        exact ⟨(G, evs.length), hG, evs, hevs, rfl⟩)
    have hscne : scored ≠ [] := by
      intro hnil
      rw [hnil] at hfa
      exact hgen (List.forall₂_nil_right_iff.mp hfa)
    obtain ⟨b, hfbm, hbmem, hbmin, -⟩ :=
      c4_last_min_wins tcs ams_size l mgs scored hfa hscne
    refine ⟨b.1, b.2, hfbm, ?_, ?_⟩
    · obtain ⟨p, hp, hR⟩ := forall₂_mem_right _ _ _ hfa b hbmem
      obtain ⟨hmk, evs, hevs, hn⟩ := hR
      exact ⟨p, hp, hmk, evs, hevs, hn.symm⟩
    · intro p hp G' evs' hmk' hevs'
      obtain ⟨s, hs, hR⟩ := forall₂_mem_left _ _ _ hfa p hp
      obtain ⟨hmk, evs, hevs, hn⟩ := hR
      have hG' : G' = s.1 := by
        rw [hmk'] at hmk
        exact (Except.ok.injEq _ _ |>.mp hmk).symm ▸ rfl
      subst hG'
      have hevseq : evs' = evs := by
        rw [hevs'] at hevs
        cases hevs
        rfl
      rw [hevseq, ← hn]
      exact hbmin s hs

/-- C2 witness: on the concrete filament set `[0, 1]` with `ams_size = 2`
the single candidate is the two-singleton partition, it is a valid
partition, and the optimizer returns it with zero manual changes. -/
theorem c2_witness :
    find_best_mapping [] [0, 1] 2 none = .ok (some (⟨[[0], [1]]⟩, 0, 0))
    ∧ ValidPartition [0, 1] 2 none [[0], [1]] := by
  obtain ⟨hsound, -, -, hmain⟩ :=
    c2_enumeration_and_minimality [0, 1] (by simp) (by decide) 2 none
      (by simp) [] (by simp)
  obtain ⟨G, n, hfbm, -, -⟩ := hmain (by decide)
  have h5 : Except.ok (ε := PyError)
      (some ((⟨[[0], [1]]⟩ : FilamentGrouping), (0 : Nat), (0 : Nat))) =
      .ok (some (G, n, ([] : List ToolChange).length)) := by
    rw [← hfbm]
    rfl
  simp only [Except.ok.injEq, Option.some.injEq, Prod.mk.injEq,
    List.length_nil] at h5
  obtain ⟨hG, hn, -⟩ := h5
  subst hG
  subst hn
  refine ⟨hfbm, ?_⟩
  refine hsound [[0], [1]] (by decide)
